import Mathlib

/-!
Verification of the `ai-contract-review` repository's natural-language
specification against a shallow embedding of its Python sources.

The Python data and operations are translated to executable Lean
definitions:

* strings are modelled as `String` / `List Char` (Python `str` methods such
  as `strip`, `lower`, `split`, `replace`, `find`, `startswith`, `in` are
  reimplemented over `List Char`, restricted to the ASCII whitespace and
  letter classes that all inputs of interest use);
* `json.loads` is reimplemented as an executable recursive-descent parser
  `jsonParse` producing the inductive `Json` (numeric lexemes are kept raw
  in `Json.num`: the embedded code never consumes numeric values);
* LLM invocations are oracle parameters: `Option String`, where `none`
  models the model invocation raising and `some c` models a response whose
  `.content` is `c`;
* pydantic model construction is modelled by `Option`-valued smart
  constructors (`none` = `ValidationError`, which subclasses `ValueError`);
  a `str` field accepts exactly JSON strings, a `List[str]` field exactly
  JSON arrays of strings.
-/

set_option maxRecDepth 8000

namespace ContractReview

/-! ## Python character classes (ASCII fragment) -/

/-- ASCII whitespace recognised by Python's `str.strip` / regex `\s`. -/
def isPySpace (c : Char) : Bool :=
  c = ' ' || c = '\t' || c = '\n' || c = '\r' || c = '\x0b' || c = '\x0c'

/-- Character class `[\f\r]` from `clean_text`'s second substitution. -/
def isFR (c : Char) : Bool := c = '\x0c' || c = '\r'

/-- regex class `[a-z]`. -/
def isLowerA (c : Char) : Bool := 'a' ≤ c && c ≤ 'z'

/-- regex class `[A-Z]`. -/
def isUpperA (c : Char) : Bool := 'A' ≤ c && c ≤ 'Z'

/-- Python `str.lower` (ASCII fragment). -/
def lowerL (l : List Char) : List Char := l.map Char.toLower

/-! ## Python string helpers on `List Char` -/

/-- Python `str.strip()` (ASCII whitespace): drop whitespace from both ends. -/
def pyStripL (l : List Char) : List Char :=
  ((l.dropWhile isPySpace).reverse.dropWhile isPySpace).reverse

/-- Python `sub in s` (substring containment). -/
def containsSub (pat : List Char) : List Char → Bool
  | [] => pat.isEmpty
  | c :: t => pat.isPrefixOf (c :: t) || containsSub pat t

/-- Python `s.find(sub)` restricted to the found case: index of the first
occurrence of `pat`, `none` if absent. -/
def findSubIdx (pat : List Char) : List Char → Option Nat
  | [] => if pat.isEmpty then some 0 else none
  | c :: t =>
    if pat.isPrefixOf (c :: t) then some 0 else (findSubIdx pat t).map (· + 1)

/-- Python `s.rfind(c)` for a single character: index of last occurrence. -/
def rfindIdx (l : List Char) (c : Char) : Option Nat :=
  match l.reverse.findIdx? (fun x => x = c) with
  | some i => some (l.length - 1 - i)
  | none => none

/-- Python `s.split(sep, 1)[1]` when `sep in s`: everything after the first
occurrence of `sep`. -/
def afterFirstSub (pat : List Char) (s : List Char) : List Char :=
  match findSubIdx pat s with
  | some i => s.drop (i + pat.length)
  | none => []

/-- Fuelled worker for `replaceSub` (non-empty pattern). -/
def replaceSubGo (pat rep : List Char) : Nat → List Char → List Char
  | 0, l => l
  | _ + 1, [] => []
  | n + 1, c :: t =>
    if pat.isPrefixOf (c :: t) then
      rep ++ replaceSubGo pat rep n (List.drop pat.length (c :: t))
    else c :: replaceSubGo pat rep n t

/-- Python `s.replace(pat, rep)`: replace all non-overlapping occurrences,
scanning left to right.  For the empty pattern Python inserts `rep` at every
position, which is reproduced here. -/
def replaceSub (pat rep s : List Char) : List Char :=
  if pat.isEmpty then rep ++ (s.map (fun c => c :: rep)).flatten
  else replaceSubGo pat rep s.length s

/-- Fuelled worker for `splitSub`. -/
def splitSubGo (sep : List Char) : Nat → List Char → List (List Char)
  | 0, l => [l]
  | n + 1, l =>
    match findSubIdx sep l with
    | none => [l]
    | some i => l.take i :: splitSubGo sep n (l.drop (i + sep.length))

/-- Python `s.split(sep)` for a non-empty separator. -/
def splitSub (sep l : List Char) : List (List Char) :=
  splitSubGo sep (l.length + 1) l

/-! ## `clean_text` (src/parsers_llm.py lines 195-221)

Each regex substitution of `clean_text` is embedded separately:
step 1 / step 2 are `collapseRuns` (collapse a run of a character class to
one replacement character), steps 3 / 4 are `sub2` (insert a space between
the two characters of a two-character match, non-overlapping left-to-right
scan), step 5 is `step5` (the `\n\s*\n\s*\n+` → `\n\n` substitution). -/

/-- Embedding of `re.sub(cls+, rep, ·)`: collapse each maximal run of characters in
class `p` to the single character `rep`. -/
def collapseRuns (p : Char → Bool) (rep : Char) : List Char → List Char
  | [] => []
  | [c] => [if p c then rep else c]
  | a :: b :: rest =>
    if p a && p b then collapseRuns p rep (b :: rest)
    else (if p a then rep else a) :: collapseRuns p rep (b :: rest)

/-- Embedding of `re.sub(r'(X)(Y)', r'\1 \2', ·)` for a two-character pattern `p`:
insert a space between the matched pair; scanning resumes after the match
(non-overlapping), exactly as `re.sub` does. -/
def sub2 (p : Char → Char → Bool) : List Char → List Char
  | a :: b :: rest =>
    if p a b then a :: ' ' :: b :: sub2 p rest
    else a :: sub2 p (b :: rest)
  | l => l

/-- Pattern `([a-z])([A-Z])` of `clean_text` step 3. -/
def pLU (a b : Char) : Bool := isLowerA a && isUpperA b

/-- Pattern `(\.)([A-Z])` of `clean_text` step 4. -/
def pDotU (a b : Char) : Bool := a = '.' && isUpperA b

/-- Index one past the last `'\n'` of `run` (meaningful when `run`
contains at least one newline). -/
def lastNlPos (run : List Char) : Nat :=
  run.length - ((run.reverse.findIdx? (fun x => x = '\n')).getD 0)

/-- Fuelled worker for `step5`.  A match of `\n\s*\n\s*\n+` must lie inside
a maximal whitespace run beginning with `'\n'`; by greediness it extends to
the last `'\n'` of that run, and exists iff the run contains at least three
newlines.  Scanning resumes after the replacement. -/
def step5Go : Nat → List Char → List Char
  | 0, l => l
  | _ + 1, [] => []
  | n + 1, c :: cs =>
    if c = '\n' then
      let run := (c :: cs).takeWhile isPySpace
      if 3 ≤ run.count '\n' then
        '\n' :: '\n' :: step5Go n (List.drop (lastNlPos run) (c :: cs))
      else c :: step5Go n cs
    else c :: step5Go n cs

/-- Embedding of `re.sub(r'\n\s*\n\s*\n+', '\n\n', ·)` — `clean_text` step 5. -/
def step5 (l : List Char) : List Char := step5Go l.length l

/-- Embedding of `clean_text` over character lists (src/parsers_llm.py lines 195-221):
empty guard, collapse `\s+` to a space, collapse `[\f\r]+` to a newline,
space between `[a-z][A-Z]`, space between `.` and `[A-Z]`, collapse triple
newlines, final `strip`. -/
def clean_textL (l : List Char) : List Char :=
  if l = [] then []
  else
    pyStripL (step5 (sub2 pDotU (sub2 pLU
      (collapseRuns isFR '\n' (collapseRuns isPySpace ' ' l)))))

/-- Embedding of `clean_text` (src/parsers_llm.py `clean_text`). -/
def clean_text (s : String) : String := String.mk (clean_textL s.data)

/-! ## JSON values and `json.loads`

`Json` mirrors the values `json.loads` produces: `None`, `bool`, numbers,
`str`, `list`, `dict`.  Numeric lexemes are kept raw in `Json.num` — the
embedded code never consumes a numeric value, it only ever asks whether a
value is a `dict`, looks keys up, or feeds the value to a pydantic `str` /
`List[str]` field (which rejects numbers).  Objects are deduplicated the
way Python `dict` literals are: a repeated key keeps its first position and
its last value. -/

inductive Json : Type
  | null : Json
  | bool (b : Bool) : Json
  | num (raw : String) : Json
  | str (s : String) : Json
  | arr (xs : List Json) : Json
  | obj (kvs : List (String × Json)) : Json

/-- Python `dict` assignment `d[k] = v` on an association list: overwrite in
place if the key is present (keeping its position), else append. -/
def dictInsert {β : Type} : List (String × β) → String → β → List (String × β)
  | [], k, v => [(k, v)]
  | p :: rest, k, v =>
    if p.1 = k then (p.1, v) :: rest else p :: dictInsert rest k v

/-- Build a Python `dict` from parsed key/value pairs in order. -/
def dedupKVs (kvs : List (String × Json)) : List (String × Json) :=
  kvs.foldl (fun acc p => dictInsert acc p.1 p.2) []

/-- Python `d.get(k, dflt)`. -/
def getKV (kvs : List (String × Json)) (k : String) (dflt : Json) : Json :=
  match kvs.find? (fun p => p.1 == k) with
  | some p => p.2
  | none => dflt

/-- Python `k in d`. -/
def hasKV (kvs : List (String × Json)) (k : String) : Bool :=
  (kvs.find? (fun p => p.1 == k)).isSome

/-- Whitespace accepted between JSON tokens by `json.loads`. -/
def isJsonWs (c : Char) : Bool := c = ' ' || c = '\t' || c = '\n' || c = '\r'

/-- The hexadecimal digits, lower-case block first. -/
def hexDigitTable : List Char := "0123456789abcdefABCDEF".data

/-- Hexadecimal digit value, for `\uXXXX` escapes: position in the table,
with the upper-case block folded onto the lower-case one. -/
def hexVal (c : Char) : Option Nat :=
  (hexDigitTable.findIdx? (fun d => d = c)).map
    (fun i => if i < 16 then i else i - 6)

/-- JSON string body parser (after the opening quote): returns the decoded
characters and the input after the closing quote.  Unescaped control
characters are rejected, as by `json.loads` in strict mode. -/
def pStrGo : Nat → List Char → Option (List Char × List Char)
  | 0, _ => none
  | _ + 1, [] => none
  | n + 1, c :: t =>
    if c = '\"' then some ([], t)
    else if c = '\\' then
      match t with
      | [] => none
      | e :: t2 =>
        if e = '\"' then (pStrGo n t2).map (fun p => ('\"' :: p.1, p.2))
        else if e = '\\' then (pStrGo n t2).map (fun p => ('\\' :: p.1, p.2))
        else if e = '/' then (pStrGo n t2).map (fun p => ('/' :: p.1, p.2))
        else if e = 'b' then (pStrGo n t2).map (fun p => ('\x08' :: p.1, p.2))
        else if e = 'f' then (pStrGo n t2).map (fun p => ('\x0c' :: p.1, p.2))
        else if e = 'n' then (pStrGo n t2).map (fun p => ('\n' :: p.1, p.2))
        else if e = 'r' then (pStrGo n t2).map (fun p => ('\r' :: p.1, p.2))
        else if e = 't' then (pStrGo n t2).map (fun p => ('\t' :: p.1, p.2))
        else if e = 'u' then
          match t2 with
          | h1 :: h2 :: h3 :: h4 :: t3 =>
            match hexVal h1, hexVal h2, hexVal h3, hexVal h4 with
            | some a, some b, some c2, some d =>
              (pStrGo n t3).map
                (fun p => (Char.ofNat (a * 4096 + b * 256 + c2 * 16 + d) :: p.1, p.2))
            | _, _, _, _ => none
          | _ => none
        else none
    else if c.toNat < 32 then none
    else (pStrGo n t).map (fun p => (c :: p.1, p.2))

/-- decimal digit test. -/
def isDigit (c : Char) : Bool := '0' ≤ c && c ≤ '9'

/-- JSON number parser: `-? (0 | [1-9][0-9]*) (. [0-9]+)? ([eE][+-]?[0-9]+)?`,
plus the `Infinity` / `NaN` extensions `json.loads` accepts.  The consumed
lexeme is returned raw. -/
def pNum (s : List Char) : Option (Json × List Char) :=
  let core : List Char → Option (List Char × List Char) := fun l =>
    match l with
    | [] => none
    | c :: _ =>
      if ("Infinity".data).isPrefixOf l then some ("Infinity".data, l.drop 8)
      else if ¬ isDigit c then none
      else
        let ip := l.takeWhile isDigit
        let r1 := l.dropWhile isDigit
        if 1 < ip.length && ip.headD '1' = '0' then none
        else
          let withFrac : Option (List Char × List Char) :=
            match r1 with
            | '.' :: r2 =>
              let fp := r2.takeWhile isDigit
              let r3 := r2.dropWhile isDigit
              if fp.isEmpty then none else some (ip ++ '.' :: fp, r3)
            | _ => some (ip, r1)
          match withFrac with
          | none => none
          | some (mant, r3) =>
            match r3 with
            | e :: r4 =>
              if e = 'e' || e = 'E' then
                let r5 := match r4 with
                  | s :: r5' => if s = '+' || s = '-' then r5' else r4
                  | [] => []
                let ed := r5.takeWhile isDigit
                let r6 := r5.dropWhile isDigit
                if ed.isEmpty then none
                else some (mant ++ e :: (r4.take (r4.length - r5.length)) ++ ed, r6)
              else some (mant, r3)
            | [] => some (mant, [])
  match s with
  | '-' :: rest =>
    match core rest with
    | some (lex, r) => some (Json.num (String.mk ('-' :: lex)), r)
    | none => none
  | _ =>
    match core s with
    | some (lex, r) => some (Json.num (String.mk lex), r)
    | none => none

/-- The recursive-descent parsers for `json.loads`, by recursion on fuel so
that every definition is a plain structural recursion: component 1 parses a
value, component 2 the element list of an array (after `[` and leading
whitespace, when the array is non-empty), component 3 the member list of an
object.  Every call site strictly shrinks the input, so fuel
`input length + 2` always suffices. -/
def parsers (fuel : Nat) :
    (List Char → Option (Json × List Char)) ×
    (List Char → Option (List Json × List Char)) ×
    (List Char → Option (List (String × Json) × List Char)) :=
  match fuel with
  | 0 => (fun _ => none, fun _ => none, fun _ => none)
  | n + 1 =>
    let pv := (parsers n).1
    let pa := (parsers n).2.1
    let po := (parsers n).2.2
    ( fun s =>
        match s with
        | [] => none
        | c :: t =>
          if c = '\x7b' then
            let t1 := t.dropWhile isJsonWs
            match t1 with
            | '\x7d' :: r => some (Json.obj [], r)
            | _ =>
              match po t1 with
              | some (kvs, r) => some (Json.obj (dedupKVs kvs), r)
              | none => none
          else if c = '[' then
            let t1 := t.dropWhile isJsonWs
            match t1 with
            | ']' :: r => some (Json.arr [], r)
            | _ =>
              match pa t1 with
              | some (xs, r) => some (Json.arr xs, r)
              | none => none
          else if c = '\"' then
            match pStrGo t.length t with
            | some (cs, r) => some (Json.str (String.mk cs), r)
            | none => none
          else if ("true".data).isPrefixOf s then some (Json.bool true, s.drop 4)
          else if ("false".data).isPrefixOf s then some (Json.bool false, s.drop 5)
          else if ("null".data).isPrefixOf s then some (Json.null, s.drop 4)
          else if ("NaN".data).isPrefixOf s then some (Json.num "NaN", s.drop 3)
          else pNum s,
      fun s =>
        match pv s with
        | none => none
        | some (v, r) =>
          match r.dropWhile isJsonWs with
          | ',' :: r2 =>
            match pa (r2.dropWhile isJsonWs) with
            | some (xs, r3) => some (v :: xs, r3)
            | none => none
          | ']' :: r2 => some ([v], r2)
          | _ => none,
      fun s =>
        match s with
        | '\"' :: t =>
          match pStrGo t.length t with
          | none => none
          | some (kcs, r) =>
            match r.dropWhile isJsonWs with
            | ':' :: r2 =>
              match pv (r2.dropWhile isJsonWs) with
              | none => none
              | some (v, r3) =>
                match r3.dropWhile isJsonWs with
                | ',' :: r5 =>
                  match po (r5.dropWhile isJsonWs) with
                  | some (kvs, r6) => some ((String.mk kcs, v) :: kvs, r6)
                  | none => none
                | '\x7d' :: r5 => some ([(String.mk kcs, v)], r5)
                | _ => none
            | _ => none
        | _ => none )

/-- Embedding of `json.loads`: parse one JSON value; trailing non-whitespace raises
(`Extra data`), modelled as `none`. -/
def jsonParse (l : List Char) : Option Json :=
  match (parsers (l.length + 2)).1 (l.dropWhile isJsonWs) with
  | some (v, r) => if r.dropWhile isJsonWs = [] then some v else none
  | none => none

/-! ## pydantic models (src/llm_analyzer.py, src/chain.py)

A pydantic `str` field accepts exactly a JSON string, a `List[str]` field
exactly a JSON array of strings; anything else raises `ValidationError`
(a `ValueError` subclass), modelled as `none`.  (pydantic would coerce a
few scalar types to `str`; no claim in scope depends on that corner, and
containers are rejected by every pydantic version.) -/

/-- Model of `ClauseInfo` (src/llm_analyzer.py lines 30-33). -/
structure ClauseInfo : Type where
  text : String
  summary : String
deriving DecidableEq

/-- Model of `ClauseRiskAssessment` (src/llm_analyzer.py lines 36-41). -/
structure ClauseRiskAssessment : Type where
  risk_level : String
  issues : List String
  recommendations : List String
  explanation : String
deriving DecidableEq

/-- Model of `RiskItem` (src/chain.py lines 22-27). -/
structure RiskItem : Type where
  text : String
  issue : String
  suggestion : String
  risk_level : String
deriving DecidableEq

/-- pydantic validation of a `str` field. -/
def asStr : Json → Option String
  | Json.str s => some s
  | _ => none

/-- pydantic validation of a `List[str]` field. -/
def asStrList : Json → Option (List String)
  | Json.arr xs => xs.mapM asStr
  | _ => none

/-! ## `detect_contract_type_llm` / `detect_governing_law_llm`
(src/llm_analyzer.py lines 44-102)

LLM calls are oracles: `none` models the invocation raising, `some c` a
response with content `c`. -/

/-- The fixed contract-type enum (src/llm_analyzer.py line 64). -/
def validTypes : List String :=
  ["NDA", "DPA", "Employment", "MSA", "SLA", "License", "Purchase",
   "Lease", "Commercial"]

/-- Embedding of `detect_contract_type_llm`: strip the response, validate against the
enum, fall back to `"Commercial"`; any exception also yields
`"Commercial"`. -/
def detect_contract_type_llm (response : Option String) : String :=
  match response with
  | none => "Commercial"
  | some c =>
    let contract_type := String.mk (pyStripL c.data)
    if contract_type ∈ validTypes then contract_type else "Commercial"

/-- Embedding of `detect_governing_law_llm`: strip the response, coerce the usual
"unknown" spellings to `"Unknown"`; any exception yields `"Unknown"`. -/
def detect_governing_law_llm (response : Option String) : String :=
  match response with
  | none => "Unknown"
  | some c =>
    let governing_law := String.mk (pyStripL c.data)
    if String.mk (lowerL governing_law.data) ∈
        ["unknown", "not specified", "not mentioned", "none"] then "Unknown"
    else governing_law

/-! ## `extract_key_clauses_llm` (src/llm_analyzer.py lines 105-144) -/

/-- One iteration of the clause loop: `some none` means the entry is
silently dropped (value not a dict, or no `"text"` key), `some (some kc)`
means `ClauseInfo` is built from `get("text", "")` / `get("summary", "")`,
and `none` means that construction raised `ValidationError` (which the
inner `except json.JSONDecodeError` does not catch). -/
def clauseOfEntry (p : String × Json) : Option (Option (String × ClauseInfo)) :=
  match p.2 with
  | Json.obj o =>
    if hasKV o "text" then
      match asStr (getKV o "text" (Json.str "")),
            asStr (getKV o "summary" (Json.str "")) with
      | some t, some sm => some (some (p.1, ⟨t, sm⟩))
      | _, _ => none
    else some none
  | _ => some none

/-- The clause loop, accumulating `clauses[clause_type] = ClauseInfo(...)`
into a dict; `none` propagates a `ValidationError` out of the loop. -/
def buildClausesGo :
    List (String × ClauseInfo) → List (String × Json) →
    Option (List (String × ClauseInfo))
  | acc, [] => some acc
  | acc, p :: rest =>
    match clauseOfEntry p with
    | none => none
    | some none => buildClausesGo acc rest
    | some (some kc) => buildClausesGo (dictInsert acc kc.1 kc.2) rest

/-- The clause loop from the empty dict. -/
def buildClauses (kvs : List (String × Json)) :
    Option (List (String × ClauseInfo)) :=
  buildClausesGo [] kvs

/-- Embedding of `extract_key_clauses_llm`: `json.loads` the raw response content; on
`JSONDecodeError` return `{}` (inner handler); a non-dict top level makes
`.items()` raise and a bad field makes pydantic raise, both caught by the
outer handler, which also returns `{}`; an invocation failure (`none`)
returns `{}` as well. -/
def extract_key_clauses_llm (response : Option String) :
    List (String × ClauseInfo) :=
  match response with
  | none => []
  | some content =>
    match jsonParse content.data with
    | none => []
    | some (Json.obj kvs) => (buildClauses kvs).getD []
    | some _ => []

/-! ## `assess_clause_risk_llm` (src/llm_analyzer.py lines 147-200) -/

/-- The test `"{" in rc and "}" in rc`. -/
def hasBraces (l : List Char) : Bool := l.contains '\x7b' && l.contains '\x7d'

/-- The slice `rc[rc.find("{") : rc.rfind("}") + 1]` (guarded by `hasBraces`). -/
def braceSliceL (l : List Char) : List Char :=
  let st := (l.findIdx? (fun c => c = '\x7b')).getD 0
  let en := (rfindIdx l '\x7d').getD 0 + 1
  (l.drop st).take (en - st)

/-- The typed default assessment returned when parsing fails
(src/llm_analyzer.py lines 191-196). -/
def defaultAssessment : ClauseRiskAssessment :=
  ⟨"medium", ["Unable to parse detailed risk assessment"],
   ["Review this clause manually"], "Automated risk assessment failed"⟩

/-- The `ClauseRiskAssessment(...)` built from the decoded dict with
`.get` defaults; `none` is a pydantic `ValidationError`. -/
def mkAssessment (kvs : List (String × Json)) : Option ClauseRiskAssessment :=
  match asStr (getKV kvs "risk_level" (Json.str "medium")),
        asStrList (getKV kvs "issues" (Json.arr [])),
        asStrList (getKV kvs "recommendations" (Json.arr [])),
        asStr (getKV kvs "explanation" (Json.str "")) with
  | some rl, some is, some rs, some ex => some ⟨rl, is, rs, ex⟩
  | _, _, _, _ => none

/-- The decode stage of `assess_clause_risk_llm`: strip the content; if both
braces occur, decode the first-`{`-to-last-`}` slice, otherwise decode the
whole stripped content. -/
def assessDecoded (content : String) : Option Json :=
  let rc := pyStripL content.data
  if hasBraces rc then jsonParse (braceSliceL rc) else jsonParse rc

/-- What `assess_clause_risk_llm` does with the decode result: a failed
decode (`JSONDecodeError`) or a pydantic `ValidationError` (a `ValueError`)
is caught by the inner handler, which returns the typed default; a decoded
non-dict makes `.get` raise `AttributeError`, caught only by the outer
handler, which returns `None`. -/
def assessFromDecoded : Option Json → Option ClauseRiskAssessment
  | none => some defaultAssessment
  | some (Json.obj kvs) =>
    match mkAssessment kvs with
    | some a => some a
    | none => some defaultAssessment
  | some _ => none

/-- Embedding of `assess_clause_risk_llm`; `none` for the response models the model
invocation raising, which the outer handler turns into `None`. -/
def assess_clause_risk_llm (response : Option String) :
    Option ClauseRiskAssessment :=
  match response with
  | none => none
  | some content => assessFromDecoded (assessDecoded content)

/-! ## `llm_review` (src/chain.py lines 57-155) -/

/-- The `current_risk` dict: when non-empty it always carries the four keys
set together at src/chain.py lines 115-120. -/
structure RiskData : Type where
  text : String
  issue : String
  suggestion : String
  risk_level : String
deriving DecidableEq

/-- Embedding of `create_risk_item` (src/chain.py lines 148-155); all four keys are
always present when the dict is non-empty, so the `.get` defaults are
inert. -/
def create_risk_item (risk_data : RiskData) : RiskItem :=
  ⟨risk_data.text, risk_data.issue, risk_data.suggestion, risk_data.risk_level⟩

/-- One line of `llm_review`'s parsing loop (src/chain.py lines 96-120).
State is `(risks, current_risk)` with `none` for the empty dict; only a
stripped line starting with `"Risk"` and containing `':'` changes the
state. -/
def procLine (st : List RiskItem × Option RiskData) (l : List Char) :
    List RiskItem × Option RiskData :=
  let line := pyStripL l
  if line = [] then st
  else if ("Risk".data).isPrefixOf line && line.contains ':' then
    let risks := st.1 ++ (st.2.map create_risk_item).toList
    let parts := splitSub (" - ".data) line
    if 4 ≤ parts.length then
      let p0 := parts.getD 0 []
      let p1 := parts.getD 1 []
      let p2 := parts.getD 2 []
      let p3 := parts.getD 3 []
      let text_part := if containsSub (": ".data) p0 then afterFirstSub (": ".data) p0 else []
      let issue_part :=
        if ("Issue: ".data).isPrefixOf p1 then replaceSub ("Issue: ".data) [] p1 else p1
      let suggestion_part :=
        if ("Suggestion: ".data).isPrefixOf p2 then replaceSub ("Suggestion: ".data) [] p2 else p2
      let level_part :=
        if ("Level: ".data).isPrefixOf p3 then replaceSub ("Level: ".data) [] p3 else p3
      (risks, some ⟨String.mk (pyStripL text_part), String.mk (pyStripL issue_part),
                    String.mk (pyStripL suggestion_part),
                    String.mk (lowerL (pyStripL level_part))⟩)
    else (risks, none)
  else st

/-- The records recovered by the line-oriented grammar from the stripped
response text: run the loop over `split('\n')` and flush the last
`current_risk`. -/
def parsedRisks (rt : List Char) : List RiskItem :=
  let st := (splitSub ['\n'] rt).foldl procLine ([], none)
  st.1 ++ (st.2.map create_risk_item).toList

/-- The case-insensitive "no significant risks" test
(src/chain.py line 89). -/
def hasNSR (rt : List Char) : Bool :=
  containsSub ("no significant risks".data) (lowerL rt)

/-- The generic record synthesized when parsing recovers nothing
(src/chain.py lines 128-133). -/
def generalRiskItem : RiskItem :=
  ⟨"General contract review", "Contract requires detailed legal review",
   "Have this contract reviewed by qualified legal counsel", "medium"⟩

/-- The record returned when the model invocation raises
(src/chain.py lines 139-146). -/
def errorRiskItem : RiskItem :=
  ⟨"Contract analysis error", "Unable to complete automated analysis",
   "Please review this contract manually with legal counsel", "medium"⟩

/-- Embedding of `llm_review` (src/chain.py lines 57-146): empty or "no significant
risks" responses yield `[]`; otherwise the line-oriented records, or the
single generic record when none were recovered; an invocation failure
yields the single error record. -/
def llm_review (response : Option String) : List RiskItem :=
  match response with
  | none => [errorRiskItem]
  | some content =>
    let rt := pyStripL content.data
    if rt.isEmpty || hasNSR rt then []
    else
      let risks := parsedRisks rt
      if risks = [] then [generalRiskItem] else risks

/-! ## `analyze_contract_comprehensive` (src/llm_analyzer.py lines 203-245) -/

/-- The result dict of `analyze_contract_comprehensive`. -/
structure AnalysisResult : Type where
  contract_type : String
  governing_law : String
  key_clauses : List (String × ClauseInfo)
  clause_risks : List (String × ClauseRiskAssessment)

/-- Embedding of `analyze_contract_comprehensive`: the four LLM stages with their
responses passed as oracles (`riskR` maps a clause text to the response of
its risk-assessment invocation); risks are assessed only for clauses whose
text exceeds 100 characters, and `None` assessments are not recorded. -/
def analyze_contract_comprehensive (typeR lawR clausesR : Option String)
    (riskR : String → Option String) : AnalysisResult :=
  let contract_type := detect_contract_type_llm typeR
  let governing_law := detect_governing_law_llm lawR
  let key_clauses := extract_key_clauses_llm clausesR
  let clause_risks := key_clauses.foldl
    (fun acc p =>
      if 100 < p.2.text.length then
        match assess_clause_risk_llm (riskR p.2.text) with
        | some a => acc ++ [(p.1, a)]
        | none => acc
      else acc) []
  ⟨contract_type, governing_law, key_clauses, clause_risks⟩

/-! ## `highlight_risks_in_text` (src/Home.py lines 64-93) -/

/-- The sort key: `text.find(x.text) if x.text in text else 0`. -/
def riskKey (text : String) (r : RiskItem) : Nat :=
  if containsSub r.text.data text.data then (findSubIdx r.text.data text.data).getD 0
  else 0

/-- Stable descending insertion (an element moves past exactly the elements
with a strictly smaller key), matching `sorted(..., reverse=True)`. -/
def insertDesc {α : Type} (k : α → Nat) (a : α) : List α → List α
  | [] => [a]
  | b :: bs => if k b < k a then a :: b :: bs else b :: insertDesc k a bs

/-- Embedding of `sorted(risks, key=..., reverse=True)`: stable sort by descending key. -/
def sortDesc {α : Type} (k : α → Nat) : List α → List α
  | [] => []
  | a :: as => insertDesc k a (sortDesc k as)

/-- The color dict lookup with default (src/Home.py lines 82-86). -/
def colorFor (lvl : String) : String :=
  if lvl = "high" then "#ffcdd2"
  else if lvl = "medium" then "#ffe0b2"
  else if lvl = "low" then "#f3e5f5"
  else "#f3e5f5"

/-- The opening `<mark>` tag built by the f-string at src/Home.py line 90. -/
def markOpen (color : String) : String :=
  "<mark style=\"background-color: " ++ color ++
    "; padding: 2px 4px; border-radius: 3px;\">"

/-- The body of the highlighting loop: if `risk.text` occurs in the current
(partially highlighted) text, replace all its occurrences by the `<mark>`
wrapping; otherwise leave the text unchanged. -/
def applyRisk (acc : String) (r : RiskItem) : String :=
  if containsSub r.text.data acc.data then
    String.mk (replaceSub r.text.data
      (markOpen (colorFor r.risk_level) ++ r.text ++ "</mark>").data acc.data)
  else acc

/-- Embedding of `highlight_risks_in_text` (src/Home.py lines 64-93). -/
def highlight_risks_in_text (text : String) (risks : List RiskItem) : String :=
  (sortDesc (riskKey text) risks).foldl applyRisk text

/-! ## `extract_text` (src/parsers_llm.py lines 93-151) and the caller gate
(src/Home.py lines 178-191)

Each extraction backend catches its own exceptions and returns `""`, so a
backend is an oracle `Option String` with `none` (a raise) absorbed to
`""`. -/

/-- The extraction backends available to `extract_text`. -/
structure Backends : Type where
  pymupdf : Option String
  pdfplumber : Option String
  pypdf2 : Option String
  python_docx : Option String
  docx2txt : Option String
  txt_utf8 : Option String
  txt_latin1 : Option String

/-- Run a backend: its own `except` clause turns a raise into `""`. -/
def runBk (r : Option String) : String := r.getD ""

/-- The dispatch key `file_obj.name.split(".")[-1].lower()`. -/
def suffixOf (name : String) : String :=
  String.mk (lowerL ((splitSub ['.'] name.data).getLastD []))

/-- Embedding of `extract_text`: dispatch on the file-name suffix, try the
format's backends in order keeping the first whose strip is non-empty
(else the last one's result), decode `.txt` as UTF-8 with a Latin-1
fallback, and return the stripped text. -/
def extract_text (name : String) (b : Backends) : String :=
  let suffix := suffixOf name
  let text : List Char :=
    if suffix = "pdf" then
      let t1 := (runBk b.pymupdf).data
      if pyStripL t1 ≠ [] then t1
      else
        let t2 := (runBk b.pdfplumber).data
        if pyStripL t2 ≠ [] then t2 else (runBk b.pypdf2).data
    else if suffix = "docx" then
      let t1 := (runBk b.python_docx).data
      if pyStripL t1 ≠ [] then t1 else (runBk b.docx2txt).data
    else if suffix = "txt" then
      match b.txt_utf8 with
      | some t => t.data
      | none => ((b.txt_latin1).getD "").data
    else []
  String.mk (pyStripL text)

/-- The gate in `main` (src/Home.py lines 178-191): the extracted text is
cleaned, and `process_contract` — hence `analyze_contract_full` /
`analyze_contract_comprehensive` — runs only when the cleaned text strips
to something non-empty. -/
def mainInvokesAnalysis (name : String) (b : Backends) : Bool :=
  !(pyStripL (clean_text (extract_text name b)).data).isEmpty

/-! ## Small auxiliary lemmas -/

theorem isEmpty_eq_nil {α : Type} (l : List α) : l.isEmpty = true ↔ l = [] := by
  cases l <;> simp

/-! ## Claim C9 — contract-type detection always lands in the enum -/

/-- C9: `detect_contract_type_llm` always returns a member of the fixed
9-value enum; every response whose stripped content is not exactly one of
the nine strings, and every invocation failure, yields `"Commercial"`. -/
theorem C9_contract_type_enum (r : Option String) :
    detect_contract_type_llm r ∈ validTypes ∧
    (∀ c, r = some c → String.mk (pyStripL c.data) ∉ validTypes →
      detect_contract_type_llm r = "Commercial") ∧
    detect_contract_type_llm none = "Commercial" := by
  refine ⟨?_, ?_, rfl⟩
  · cases r with
    | none =>
      show "Commercial" ∈ validTypes
      decide
    | some c =>
      by_cases h : String.mk (pyStripL c.data) ∈ validTypes
      · simp [detect_contract_type_llm, h]
      · simp only [detect_contract_type_llm, h, if_false]
        decide
  · rintro c rfl h
    simp only [detect_contract_type_llm, h, if_false]

/-- C9 witness: a response outside the enum is coerced to `"Commercial"`. -/
theorem C9_contract_type_enum_witness :
    detect_contract_type_llm (some "hello") = "Commercial" :=
  (C9_contract_type_enum (some "hello")).2.1 "hello" rfl (by decide)

/-! ## Claim C6 — `llm_review` is empty exactly for empty / "no significant
risks" responses -/

/-- C6: `llm_review` on a received response returns `[]` exactly when the
stripped response is empty or case-insensitively contains
"no significant risks"; for any other response from which the line grammar
recovers zero records it returns exactly the single synthesized
"General contract review" record (at `medium`). -/
theorem C6_llm_review_empty_iff (content : String) :
    (llm_review (some content) = [] ↔
      pyStripL content.data = [] ∨ hasNSR (pyStripL content.data) = true) ∧
    (pyStripL content.data ≠ [] → hasNSR (pyStripL content.data) = false →
      parsedRisks (pyStripL content.data) = [] →
      llm_review (some content) = [generalRiskItem]) := by
  have he : llm_review (some content)
      = if (pyStripL content.data).isEmpty || hasNSR (pyStripL content.data) then []
        else if parsedRisks (pyStripL content.data) = [] then [generalRiskItem]
        else parsedRisks (pyStripL content.data) := rfl
  by_cases h1 : ((pyStripL content.data).isEmpty || hasNSR (pyStripL content.data)) = true
  · rw [he, if_pos h1]
    refine ⟨⟨fun _ => ?_, fun _ => rfl⟩, fun hne hnsr _ => ?_⟩
    · rcases Bool.or_eq_true_iff.mp h1 with h | h
      · exact Or.inl ((isEmpty_eq_nil _).mp h)
      · exact Or.inr h
    · exfalso
      rcases Bool.or_eq_true_iff.mp h1 with h | h
      · exact hne ((isEmpty_eq_nil _).mp h)
      · rw [h] at hnsr
        exact absurd hnsr (by simp)
  · rw [he, if_neg h1]
    have h2 : ¬ (pyStripL content.data = [] ∨ hasNSR (pyStripL content.data) = true) := by
      intro hor
      apply h1
      rcases hor with h | h
      · rw [(isEmpty_eq_nil _).mpr h]
        rfl
      · rw [h, Bool.or_true]
    refine ⟨⟨fun hres => absurd ?_ h2, fun hor => absurd hor h2⟩, fun _ _ hp => ?_⟩
    · by_cases hp : parsedRisks (pyStripL content.data) = []
      · rw [if_pos hp] at hres
        exact absurd hres (by simp [generalRiskItem])
      · rw [if_neg hp] at hres
        exact absurd hres hp
    · rw [if_pos hp]

/-- C6 witness: the exact response "No significant risks found." yields an
empty sequence. -/
theorem C6_llm_review_empty_iff_witness :
    llm_review (some "No significant risks found.") = [] :=
  (C6_llm_review_empty_iff "No significant risks found.").1.mpr (Or.inr (by decide))

/-! ## Claim C1 — `risk_level` is not validated against the enum

The code coerces *unparsable* responses to `"medium"`, but a successfully
parsed `risk_level` string is copied into the result without any check
against `{"high", "medium", "low"}`. -/

/-- C1 counterexample: a parsable risk-assessment response carrying
`"severe"` produces a `ClauseRiskAssessment` outside the three-value enum,
and a `Risk ...` line with level `critical` produces a `RiskItem` outside
it, refuting the claimed invariant. -/
theorem C1_counterexample :
    (assess_clause_risk_llm
        (some "\x7b\"risk_level\": \"severe\"\x7d")).map
      ClauseRiskAssessment.risk_level = some "severe" ∧
    "severe" ∉ ["high", "medium", "low"] ∧
    (llm_review (some "Risk 1: a - b - c - critical")).map
      RiskItem.risk_level = ["critical"] ∧
    "critical" ∉ ["high", "medium", "low"] :=
  ⟨rfl, by decide, rfl, by decide⟩

/-- C1 amended: assessments built from responses whose (sliced) JSON fails
to decode, or whose decoded fields fail pydantic validation, carry
`risk_level = "medium"`, as do `llm_review`'s synthesized fallback record
and its invocation-error record; but a successfully parsed response's
`risk_level` string is copied into the result unvalidated, so values
outside the enum occur. -/
theorem C1_risk_level_amended (content : String) :
    defaultAssessment.risk_level = "medium" ∧
    (assessDecoded content = none →
      assess_clause_risk_llm (some content) = some defaultAssessment) ∧
    (∀ kvs, assessDecoded content = some (Json.obj kvs) → mkAssessment kvs = none →
      assess_clause_risk_llm (some content) = some defaultAssessment) ∧
    (∀ kvs a, assessDecoded content = some (Json.obj kvs) → mkAssessment kvs = some a →
      assess_clause_risk_llm (some content) = some a ∧
      asStr (getKV kvs "risk_level" (Json.str "medium")) = some a.risk_level) ∧
    (pyStripL content.data ≠ [] → hasNSR (pyStripL content.data) = false →
      parsedRisks (pyStripL content.data) = [] →
      ∀ r ∈ llm_review (some content), r.risk_level = "medium") ∧
    (∀ r ∈ llm_review none, r.risk_level = "medium") := by
  refine ⟨rfl, ?_, ?_, ?_, ?_, ?_⟩
  · intro h
    show assessFromDecoded (assessDecoded content) = some defaultAssessment
    rw [h]
    rfl
  · intro kvs h hm
    show assessFromDecoded (assessDecoded content) = some defaultAssessment
    rw [h]
    show (match mkAssessment kvs with
          | some a => some a
          | none => some defaultAssessment) = some defaultAssessment
    rw [hm]
  · intro kvs a h hm
    constructor
    · show assessFromDecoded (assessDecoded content) = some a
      rw [h]
      show (match mkAssessment kvs with
            | some a => some a
            | none => some defaultAssessment) = some a
      rw [hm]
    · revert hm
      simp only [mkAssessment]
      cases h1 : asStr (getKV kvs "risk_level" (Json.str "medium")) with
      | none => intro hm; cases hm
      | some rl =>
        cases h2 : asStrList (getKV kvs "issues" (Json.arr [])) with
        | none => intro hm; cases hm
        | some is =>
          cases h3 : asStrList (getKV kvs "recommendations" (Json.arr [])) with
          | none => intro hm; cases hm
          | some rs =>
            cases h4 : asStr (getKV kvs "explanation" (Json.str "")) with
            | none => intro hm; cases hm
            | some ex =>
              intro hm
              cases hm
              rfl
  · intro hne hnsr hp r hr
    rw [(C6_llm_review_empty_iff content).2 hne hnsr hp] at hr
    rcases List.mem_singleton.mp hr with rfl
    rfl
  · intro r hr
    rcases List.mem_singleton.mp hr with rfl
    rfl

/-- C1 witness: an unparsable response yields the typed default with
`risk_level = "medium"`. -/
theorem C1_risk_level_amended_witness :
    assess_clause_risk_llm (some "garbage") = some defaultAssessment :=
  (C1_risk_level_amended "garbage").2.1 (by rfl)

/-! ## Claim C2 — only the risk-assessment stage slices braces -/

/-- A clause-extraction response with JSON embedded in prose: the direct
decode fails, both braces are present, and the brace slice decodes to a
clause-bearing object. -/
def junkClauseResp : String := "junk \x7b\"a\": \x7b\"text\": \"T\"\x7d\x7d Thanks"

/-- C2 counterexample: for this clause-extraction response the direct JSON
decode fails and both braces are present, and the first-`{`-to-last-`}`
slice decodes to an object carrying a clause — yet
`extract_key_clauses_llm` returns the empty mapping: the claimed retry does
not exist in the clause-extraction stage. -/
theorem C2_counterexample :
    jsonParse junkClauseResp.data = none ∧
    hasBraces junkClauseResp.data = true ∧
    jsonParse (braceSliceL junkClauseResp.data)
      = some (Json.obj [("a", Json.obj [("text", Json.str "T")])]) ∧
    extract_key_clauses_llm (some junkClauseResp) = [] :=
  ⟨rfl, rfl, rfl, rfl⟩

/-- C2 amended: only the risk-assessment stage extracts the substring from
the first `{` to the last `}` — and it does so whenever both braces occur
in the stripped response, without first attempting a direct decode (which
coincides with decode-then-retry whenever the direct decode would fail);
the clause-extraction stage only ever attempts the direct decode and
returns its typed default `{}` on failure. -/
theorem C2_brace_slice_amended (content : String) :
    (jsonParse content.data = none → extract_key_clauses_llm (some content) = []) ∧
    (hasBraces (pyStripL content.data) = true →
      assess_clause_risk_llm (some content)
        = assessFromDecoded (jsonParse (braceSliceL (pyStripL content.data)))) ∧
    (hasBraces (pyStripL content.data) = false →
      assess_clause_risk_llm (some content)
        = assessFromDecoded (jsonParse (pyStripL content.data))) := by
  refine ⟨?_, ?_, ?_⟩
  · intro h
    show (match jsonParse content.data with
          | none => ([] : List (String × ClauseInfo))
          | some (Json.obj kvs) => (buildClauses kvs).getD []
          | some _ => []) = []
    rw [h]
  · intro h
    show assessFromDecoded (assessDecoded content) = _
    rw [assessDecoded, if_pos h]
  · intro h
    show assessFromDecoded (assessDecoded content) = _
    rw [assessDecoded, if_neg (by rw [h]; exact Bool.false_ne_true)]

/-- C2 witness: for the spec's example risk-assessment response only the
`{...}` span is decoded, yielding the embedded `high` assessment. -/
theorem C2_brace_slice_amended_witness :
    assess_clause_risk_llm
        (some "Here is the result: \x7b\"risk_level\": \"high\"\x7d Thanks")
      = some ⟨"high", [], [], ""⟩ :=
  ((C2_brace_slice_amended
      "Here is the result: \x7b\"risk_level\": \"high\"\x7d Thanks").2.1
    (by rfl)).trans (by rfl)

/-! ## Claim C5 — clause extraction and pydantic validation -/

theorem clauseOfEntry_fst {p : String × Json} {kc : String × ClauseInfo}
    (h : clauseOfEntry p = some (some kc)) : kc.1 = p.1 := by
  obtain ⟨k, v⟩ := p
  cases v with
  | obj o =>
    simp only [clauseOfEntry] at h
    by_cases ht : hasKV o "text"
    · rw [if_pos ht] at h
      cases h1 : asStr (getKV o "text" (Json.str "")) with
      | none => rw [h1] at h; cases h
      | some t =>
        cases h2 : asStr (getKV o "summary" (Json.str "")) with
        | none => rw [h1, h2] at h; cases h
        | some sm =>
          rw [h1, h2] at h
          cases h
          rfl
    · rw [if_neg ht] at h
      cases h
  | null => cases h
  | bool b => cases h
  | num r => cases h
  | str s => cases h
  | arr xs => cases h

theorem dictInsert_of_not_mem {β : Type} (l : List (String × β)) (k : String)
    (v : β) (h : k ∉ l.map Prod.fst) : dictInsert l k v = l ++ [(k, v)] := by
  induction l with
  | nil => rfl
  | cons p rest ih =>
    simp only [List.map_cons, List.mem_cons] at h
    push_neg at h
    simp only [dictInsert, if_neg (Ne.symm h.1), List.cons_append]
    rw [ih h.2]

theorem buildClausesGo_ok (kvs : List (String × Json)) :
    ∀ acc : List (String × ClauseInfo),
    (∀ p ∈ kvs, clauseOfEntry p ≠ none) →
    (∀ k ∈ acc.map Prod.fst, k ∉ kvs.map Prod.fst) →
    (kvs.map Prod.fst).Nodup →
    buildClausesGo acc kvs
      = some (acc ++ kvs.filterMap (fun p => (clauseOfEntry p).bind id)) := by
  induction kvs with
  | nil => intro acc _ _ _; simp [buildClausesGo]
  | cons p rest ih =>
    intro acc hok hdisj hnd
    have hp := hok p (List.mem_cons_self p rest)
    simp only [List.map_cons, List.nodup_cons] at hnd
    simp only [buildClausesGo, List.filterMap_cons]
    cases hce : clauseOfEntry p with
    | none => exact absurd hce hp
    | some o =>
      cases o with
      | none =>
        simp only [Option.bind_none]
        exact ih acc (fun q hq => hok q (List.mem_cons_of_mem p hq))
          (fun k hk => fun hmem =>
            hdisj k hk (by simp only [List.map_cons, List.mem_cons]; exact Or.inr hmem))
          hnd.2
      | some kc =>
        simp only [Option.bind_some, Option.bind]
        have hfst := clauseOfEntry_fst hce
        have hknotacc : kc.1 ∉ acc.map Prod.fst := by
          intro hmem
          exact hdisj kc.1 hmem
            (by simp only [List.map_cons, List.mem_cons]; exact Or.inl hfst)
        rw [dictInsert_of_not_mem acc kc.1 kc.2 hknotacc]
        have := ih (acc ++ [(kc.1, kc.2)])
          (fun q hq => hok q (List.mem_cons_of_mem p hq))
          (fun k hk => by
            simp only [List.map_append, List.mem_append, List.map_cons,
              List.mem_singleton, List.map_nil] at hk
            rcases hk with hk | hk
            · intro hmem
              exact hdisj k hk
                (by simp only [List.map_cons, List.mem_cons]; exact Or.inr hmem)
            · rw [hk, hfst]
              exact hnd.1)
          hnd.2
        rw [this, List.append_assoc]
        rfl

theorem buildClausesGo_fail (kvs : List (String × Json)) :
    ∀ acc : List (String × ClauseInfo),
    (∃ p ∈ kvs, clauseOfEntry p = none) → buildClausesGo acc kvs = none := by
  induction kvs with
  | nil => intro acc h; rcases h with ⟨p, hp, _⟩; cases hp
  | cons p rest ih =>
    intro acc h
    simp only [buildClausesGo]
    cases hce : clauseOfEntry p with
    | none => rfl
    | some o =>
      have hr : ∃ q ∈ rest, clauseOfEntry q = none := by
        rcases h with ⟨q, hq, hqn⟩
        rcases List.mem_cons.mp hq with rfl | hq
        · exact absurd hce (by rw [hqn]; exact fun hc => Option.noConfusion hc)
        · exact ⟨q, hq, hqn⟩
      cases o with
      | none => exact ih acc hr
      | some kc => exact ih (dictInsert acc kc.1 kc.2) hr

/-- A clause-extraction response whose entry "a" is an object with a
non-string `"text"` value and whose entry "b" is a well-formed clause. -/
def badClauseResp : String :=
  "\x7b\"a\": \x7b\"text\": \x7b\x7d\x7d, \"b\": \x7b\"text\": \"T\"\x7d\x7d"

/-- C5 counterexample: this response decodes as a top-level object whose
entry `"b"` is an object containing a `"text"` field, so the claim requires
`"b"` to appear in the returned mapping — but the non-string `"text"` of
entry `"a"` raises `ValidationError` past the inner handler and the stage
returns the empty mapping. -/
theorem C5_counterexample :
    jsonParse badClauseResp.data
      = some (Json.obj [("a", Json.obj [("text", Json.obj [])]),
                        ("b", Json.obj [("text", Json.str "T")])]) ∧
    extract_key_clauses_llm (some badClauseResp) = [] :=
  ⟨rfl, rfl⟩

/-- C5 amended: on a top-level JSON object, exactly the entries whose value
is an object containing a `"text"` field are retained (text and summary
read from the entry, summary defaulting to `""`) *provided every retained
entry's text — and its summary when present — is a string*; if any retained
entry carries a non-string field, pydantic's `ValidationError` escapes the
inner handler and the stage returns the empty mapping; a failed top-level
decode, a non-object top level, and an invocation failure also give the
empty mapping, and the stage never raises. -/
theorem C5_extraction_amended (content : String) :
    (jsonParse content.data = none → extract_key_clauses_llm (some content) = []) ∧
    (∀ kvs, jsonParse content.data = some (Json.obj kvs) →
      extract_key_clauses_llm (some content) = (buildClauses kvs).getD []) ∧
    (∀ j, jsonParse content.data = some j → (∀ kvs, j ≠ Json.obj kvs) →
      extract_key_clauses_llm (some content) = []) ∧
    (∀ kvs, (kvs.map Prod.fst).Nodup →
      ((∀ p ∈ kvs, clauseOfEntry p ≠ none) →
        buildClauses kvs
          = some (kvs.filterMap (fun p => (clauseOfEntry p).bind id))) ∧
      ((∃ p ∈ kvs, clauseOfEntry p = none) → buildClauses kvs = none)) := by
  refine ⟨?_, ?_, ?_, ?_⟩
  · intro h
    show (match jsonParse content.data with
          | none => ([] : List (String × ClauseInfo))
          | some (Json.obj kvs) => (buildClauses kvs).getD []
          | some _ => []) = []
    rw [h]
  · intro kvs h
    show (match jsonParse content.data with
          | none => ([] : List (String × ClauseInfo))
          | some (Json.obj kvs) => (buildClauses kvs).getD []
          | some _ => []) = _
    rw [h]
  · intro j h hno
    show (match jsonParse content.data with
          | none => ([] : List (String × ClauseInfo))
          | some (Json.obj kvs) => (buildClauses kvs).getD []
          | some _ => []) = []
    rw [h]
    cases j with
    | obj kvs => exact absurd rfl (hno kvs)
    | null => rfl
    | bool b => rfl
    | num r => rfl
    | str s => rfl
    | arr xs => rfl
  · intro kvs hnd
    constructor
    · intro hok
      have := buildClausesGo_ok kvs [] hok (by intro k hk; cases hk) hnd
      simpa [buildClauses] using this
    · intro hex
      exact buildClausesGo_fail kvs [] hex

/-- C5 witness: the spec's example `{"termination": {"text": "T",
"summary": "S"}}` yields exactly the one clause keyed `termination`. -/
theorem C5_extraction_amended_witness :
    extract_key_clauses_llm
        (some "\x7b\"termination\": \x7b\"text\": \"T\", \"summary\": \"S\"\x7d\x7d")
      = [("termination", ⟨"T", "S"⟩)] :=
  (((C5_extraction_amended
        "\x7b\"termination\": \x7b\"text\": \"T\", \"summary\": \"S\"\x7d\x7d").2.1)
      [("termination", Json.obj [("text", Json.str "T"), ("summary", Json.str "S")])]
      (by rfl)).trans (by rfl)

/-! ## Claim C10 — failed risk invocations are omitted from `clause_risks` -/

theorem dictInsert_keys {β : Type} (l : List (String × β)) (k : String) (v : β) :
    (dictInsert l k v).map Prod.fst
      = if k ∈ l.map Prod.fst then l.map Prod.fst
        else l.map Prod.fst ++ [k] := by
  induction l with
  | nil => simp [dictInsert]
  | cons p rest ih =>
    simp only [dictInsert]
    by_cases h : p.1 = k
    · rw [if_pos h]
      simp [h]
    · rw [if_neg h, List.map_cons, ih, List.map_cons]
      by_cases hm : k ∈ rest.map Prod.fst
      · rw [if_pos hm, if_pos (List.mem_cons_of_mem _ hm)]
      · rw [if_neg hm, if_neg ?_, List.cons_append]
        intro hc
        rcases List.mem_cons.mp hc with hc | hc
        · exact h hc.symm
        · exact hm hc

theorem dictInsert_keys_nodup {β : Type} (l : List (String × β)) (k : String)
    (v : β) (h : (l.map Prod.fst).Nodup) :
    ((dictInsert l k v).map Prod.fst).Nodup := by
  rw [dictInsert_keys]
  by_cases hm : k ∈ l.map Prod.fst
  · rw [if_pos hm]
    exact h
  · rw [if_neg hm]
    refine List.Nodup.append h (List.nodup_singleton k) ?_
    intro a ha hb
    rw [List.mem_singleton.mp hb] at ha
    exact hm ha

theorem buildClausesGo_keys_nodup (kvs : List (String × Json)) :
    ∀ acc : List (String × ClauseInfo), (acc.map Prod.fst).Nodup →
    ∀ cs, buildClausesGo acc kvs = some cs → (cs.map Prod.fst).Nodup := by
  induction kvs with
  | nil =>
    intro acc hacc cs hcs
    cases hcs
    exact hacc
  | cons p rest ih =>
    intro acc hacc cs hcs
    simp only [buildClausesGo] at hcs
    cases hce : clauseOfEntry p with
    | none => rw [hce] at hcs; cases hcs
    | some o =>
      rw [hce] at hcs
      cases o with
      | none => exact ih acc hacc cs hcs
      | some kc =>
        exact ih (dictInsert acc kc.1 kc.2)
          (dictInsert_keys_nodup acc kc.1 kc.2 hacc) cs hcs

theorem extract_keys_nodup (r : Option String) :
    ((extract_key_clauses_llm r).map Prod.fst).Nodup := by
  cases r with
  | none => exact List.nodup_nil
  | some content =>
    show ((match jsonParse content.data with
           | none => ([] : List (String × ClauseInfo))
           | some (Json.obj kvs) => (buildClauses kvs).getD []
           | some _ => []).map Prod.fst).Nodup
    cases jsonParse content.data with
    | none => exact List.nodup_nil
    | some j =>
      cases j with
      | obj kvs =>
        show (((buildClauses kvs).getD []).map Prod.fst).Nodup
        cases hb : buildClauses kvs with
        | none => exact List.nodup_nil
        | some cs =>
          exact buildClausesGo_keys_nodup kvs [] List.nodup_nil cs hb
      | null => exact List.nodup_nil
      | bool b => exact List.nodup_nil
      | num n => exact List.nodup_nil
      | str s => exact List.nodup_nil
      | arr xs => exact List.nodup_nil

theorem keys_nodup_mem_unique {β : Type} {l : List (String × β)}
    (h : (l.map Prod.fst).Nodup) {k : String} {x y : β}
    (hx : (k, x) ∈ l) (hy : (k, y) ∈ l) : x = y := by
  induction l with
  | nil => cases hx
  | cons p rest ih =>
    simp only [List.map_cons, List.nodup_cons] at h
    rcases List.mem_cons.mp hx with hx1 | hx1
    · rcases List.mem_cons.mp hy with hy1 | hy1
      · exact congrArg Prod.snd (hx1.trans hy1.symm)
      · exfalso
        apply h.1
        have hpk : p.1 = k := by rw [← hx1]
        rw [hpk]
        exact List.mem_map_of_mem Prod.fst hy1
    · rcases List.mem_cons.mp hy with hy1 | hy1
      · exfalso
        apply h.1
        have hpk : p.1 = k := by rw [← hy1]
        rw [hpk]
        exact List.mem_map_of_mem Prod.fst hx1
      · exact ih h.2 hx1 hy1

theorem clause_risks_foldl (riskR : String → Option String)
    (kc : List (String × ClauseInfo)) :
    ∀ acc : List (String × ClauseRiskAssessment),
    kc.foldl
      (fun acc p =>
        if 100 < p.2.text.length then
          match assess_clause_risk_llm (riskR p.2.text) with
          | some a => acc ++ [(p.1, a)]
          | none => acc
        else acc) acc
      = acc ++ kc.filterMap
          (fun p =>
            if 100 < p.2.text.length then
              (assess_clause_risk_llm (riskR p.2.text)).map (fun a => (p.1, a))
            else none) := by
  induction kc with
  | nil => intro acc; simp
  | cons p rest ih =>
    intro acc
    simp only [List.foldl_cons, List.filterMap_cons]
    by_cases hl : 100 < p.2.text.length
    · rw [if_pos hl, if_pos hl]
      cases ha : assess_clause_risk_llm (riskR p.2.text) with
      | none => exact ih acc
      | some a =>
        exact (ih (acc ++ [(p.1, a)])).trans (by rw [List.append_assoc]; rfl)
    · rw [if_neg hl, if_neg hl]
      exact ih acc

/-- C10: `clause_risks` is computed pointwise over the extracted clauses —
entry by entry, from that clause's text alone — keeping exactly the clauses
longer than 100 characters whose assessment returned a value; hence its
keys are a subset of the long-clause keys, and a clause whose
risk-assessment invocation raised (assessment `None`) is omitted entirely
while the other clauses are unaffected. -/
theorem C10_failed_assessments_omitted (tR lR cR : Option String)
    (riskR : String → Option String) :
    (analyze_contract_comprehensive tR lR cR riskR).clause_risks
      = (extract_key_clauses_llm cR).filterMap
          (fun p =>
            if 100 < p.2.text.length then
              (assess_clause_risk_llm (riskR p.2.text)).map (fun a => (p.1, a))
            else none) ∧
    (∀ k a, (k, a) ∈ (analyze_contract_comprehensive tR lR cR riskR).clause_risks →
      ∃ ci, (k, ci) ∈ extract_key_clauses_llm cR ∧ 100 < ci.text.length ∧
        riskR ci.text ≠ none) ∧
    (∀ k ci, (k, ci) ∈ extract_key_clauses_llm cR → 100 < ci.text.length →
      riskR ci.text = none →
      ∀ a, (k, a) ∉ (analyze_contract_comprehensive tR lR cR riskR).clause_risks) := by
  have heq : (analyze_contract_comprehensive tR lR cR riskR).clause_risks
      = (extract_key_clauses_llm cR).filterMap
          (fun p =>
            if 100 < p.2.text.length then
              (assess_clause_risk_llm (riskR p.2.text)).map (fun a => (p.1, a))
            else none) := by
    show (extract_key_clauses_llm cR).foldl _ [] = _
    rw [clause_risks_foldl riskR (extract_key_clauses_llm cR) []]
    rfl
  have hmem : ∀ k a,
      (k, a) ∈ (analyze_contract_comprehensive tR lR cR riskR).clause_risks →
      ∃ p ∈ extract_key_clauses_llm cR, p.1 = k ∧ 100 < p.2.text.length ∧
        assess_clause_risk_llm (riskR p.2.text) = some a := by
    intro k a hka
    rw [heq] at hka
    rcases List.mem_filterMap.mp hka with ⟨p, hp, hpa⟩
    by_cases hl : 100 < p.2.text.length
    · rw [if_pos hl] at hpa
      cases ha : assess_clause_risk_llm (riskR p.2.text) with
      | none => rw [ha] at hpa; cases hpa
      | some a' =>
        rw [ha] at hpa
        simp only [Option.map_some', Option.some.injEq, Prod.mk.injEq] at hpa
        exact ⟨p, hp, hpa.1, hl, by rw [ha, hpa.2]⟩
    · rw [if_neg hl] at hpa
      cases hpa
  refine ⟨heq, ?_, ?_⟩
  · intro k a hka
    rcases hmem k a hka with ⟨p, hp, hk, hl, ha⟩
    refine ⟨p.2, by rw [← hk]; exact hp, hl, ?_⟩
    intro hnone
    rw [hnone] at ha
    cases ha
  · intro k ci hci hl hnone a hka
    rcases hmem k a hka with ⟨p, hp, hk, hl', ha⟩
    have : p.2 = ci :=
      keys_nodup_mem_unique (extract_keys_nodup cR) (by rw [← hk]; exact hp) hci
    rw [this, hnone] at ha
    cases ha

/-- A clause-extraction response with a single clause 105 characters
long. -/
def longClauseResp : String :=
  "\x7b\"long\": \x7b\"text\": \"" ++
    String.mk (List.replicate 105 'a') ++ "\"\x7d\x7d"

/-- C10 witness: a clause longer than 100 characters whose risk invocation
raises is omitted from `clause_risks`. -/
theorem C10_failed_assessments_omitted_witness :
    ("long", defaultAssessment) ∉
      (analyze_contract_comprehensive none none (some longClauseResp)
        (fun _ => none)).clause_risks :=
  (C10_failed_assessments_omitted none none (some longClauseResp)
      (fun _ => none)).2.2
    "long" ⟨String.mk (List.replicate 105 'a'), ""⟩ (by decide) (by decide) rfl
    defaultAssessment

/-! ## Claim C7 — empty extraction halts the pipeline -/

/-- C7: if every extraction backend for the document's format produces an
empty or whitespace-only string (a backend raise is absorbed to `""` by its
own handler), `extract_text` returns `""` and the caller's gate never
invokes `analyze_contract_full` / `analyze_contract_comprehensive`;
unrecognised formats yield `""` unconditionally. -/
theorem C7_empty_extraction_halts (name : String) (b : Backends) :
    (suffixOf name = "pdf" →
      pyStripL (runBk b.pymupdf).data = [] →
      pyStripL (runBk b.pdfplumber).data = [] →
      pyStripL (runBk b.pypdf2).data = [] →
      extract_text name b = "" ∧ mainInvokesAnalysis name b = false) ∧
    (suffixOf name = "docx" →
      pyStripL (runBk b.python_docx).data = [] →
      pyStripL (runBk b.docx2txt).data = [] →
      extract_text name b = "" ∧ mainInvokesAnalysis name b = false) ∧
    (suffixOf name = "txt" →
      pyStripL ((b.txt_utf8).getD "").data = [] →
      pyStripL ((b.txt_latin1).getD "").data = [] →
      extract_text name b = "" ∧ mainInvokesAnalysis name b = false) ∧
    (suffixOf name ≠ "pdf" → suffixOf name ≠ "docx" → suffixOf name ≠ "txt" →
      extract_text name b = "" ∧ mainInvokesAnalysis name b = false) := by
  have hmain : extract_text name b = "" → mainInvokesAnalysis name b = false := by
    intro hx
    rw [mainInvokesAnalysis, hx]
    rfl
  refine ⟨fun hp h1 h2 h3 => ?_, fun hd h4 h5 => ?_, fun ht h6 h7 => ?_,
    fun hp hd ht => ?_⟩
  · have hx : extract_text name b = "" := by
      simp only [extract_text]
      rw [if_pos hp, if_neg (by rw [h1]; exact fun hc => hc rfl),
        if_neg (by rw [h2]; exact fun hc => hc rfl), h3]
    exact ⟨hx, hmain hx⟩
  · have hx : extract_text name b = "" := by
      simp only [extract_text]
      rw [if_neg (by rw [hd]; decide), if_pos hd,
        if_neg (by rw [h4]; exact fun hc => hc rfl), h5]
    exact ⟨hx, hmain hx⟩
  · have hx : extract_text name b = "" := by
      simp only [extract_text]
      rw [if_neg (by rw [ht]; decide), if_neg (by rw [ht]; decide), if_pos ht]
      cases hu : b.txt_utf8 with
      | some t =>
        rw [hu] at h6
        rw [show ((some t).getD "") = t from rfl] at h6
        show String.mk (pyStripL t.data) = ""
        rw [h6]
      | none =>
        show String.mk (pyStripL ((b.txt_latin1).getD "").data) = ""
        rw [h7]
    exact ⟨hx, hmain hx⟩
  · have hx : extract_text name b = "" := by
      simp only [extract_text]
      rw [if_neg hp, if_neg hd, if_neg ht]
      rfl
    exact ⟨hx, hmain hx⟩

/-- C7 witness: a PDF whose three extraction backends all raise is reported
as `""` and the analysis never runs. -/
theorem C7_empty_extraction_halts_witness :
    extract_text "a.pdf" ⟨none, none, none, none, none, none, none⟩ = "" ∧
    mainInvokesAnalysis "a.pdf" ⟨none, none, none, none, none, none, none⟩ = false :=
  (C7_empty_extraction_halts "a.pdf" ⟨none, none, none, none, none, none, none⟩).1
    rfl rfl rfl rfl

/-! ## Claim C8 — highlighting order and the skip condition -/

theorem mem_insertDesc {α : Type} (k : α → Nat) (a : α) (l : List α) (x : α) :
    x ∈ insertDesc k a l ↔ x = a ∨ x ∈ l := by
  induction l with
  | nil => simp [insertDesc]
  | cons b bs ih =>
    simp only [insertDesc]
    by_cases h : k b < k a
    · rw [if_pos h]
      simp [List.mem_cons]
    · rw [if_neg h]
      simp only [List.mem_cons, ih]
      tauto

theorem pairwise_insertDesc {α : Type} (k : α → Nat) (a : α) (l : List α)
    (h : l.Pairwise (fun x y => k y ≤ k x)) :
    (insertDesc k a l).Pairwise (fun x y => k y ≤ k x) := by
  induction l with
  | nil => simp [insertDesc]
  | cons b bs ih =>
    rcases List.pairwise_cons.mp h with ⟨hb, hbs⟩
    simp only [insertDesc]
    by_cases hk : k b < k a
    · rw [if_pos hk]
      refine List.pairwise_cons.mpr ⟨?_, h⟩
      intro x hx
      rcases List.mem_cons.mp hx with rfl | hx
      · exact le_of_lt hk
      · exact le_trans (hb x hx) (le_of_lt hk)
    · rw [if_neg hk]
      refine List.pairwise_cons.mpr ⟨?_, ih hbs⟩
      intro x hx
      rcases (mem_insertDesc k a bs x).mp hx with rfl | hx
      · exact le_of_not_lt hk
      · exact hb x hx

theorem pairwise_sortDesc {α : Type} (k : α → Nat) (l : List α) :
    (sortDesc k l).Pairwise (fun x y => k y ≤ k x) := by
  induction l with
  | nil => simp [sortDesc]
  | cons a as ih => exact pairwise_insertDesc k a (sortDesc k as) ih

/-- A risk whose text occurs verbatim in the running example source. -/
def riskAbc : RiskItem := ⟨"abc", "i", "s", "low"⟩

/-- A risk whose text does not occur in the running example source, but
does occur in the `<mark>` markup inserted for `riskAbc`. -/
def riskMark : RiskItem := ⟨"mark", "i", "s", "low"⟩

/-- C8 counterexample: `"mark"` does not occur in the source text, so the
claim says the `riskMark` record performs no replacement — but after
`riskAbc`'s replacement injects `<mark ...>` markup, `riskMark`'s text *is*
found in the partially highlighted text and is replaced, changing the
output. -/
theorem C8_counterexample :
    containsSub "mark".data "z abc z".data = false ∧
    highlight_risks_in_text "z abc z" [riskAbc, riskMark]
      ≠ highlight_risks_in_text "z abc z" [riskAbc] :=
  ⟨rfl, by decide⟩

/-- C8 amended: risks are applied in descending order of their sort key —
the first-occurrence offset in the *source* for risks found there, `0` for
the rest — and at its turn a risk is skipped exactly when its text does not
occur in the *current partially highlighted* text; a risk absent from the
source therefore performs no replacement unless an earlier replacement's
markup introduced its text. -/
theorem C8_highlight_order_amended (text : String) (risks : List RiskItem) :
    highlight_risks_in_text text risks
      = (sortDesc (riskKey text) risks).foldl applyRisk text ∧
    (sortDesc (riskKey text) risks).Pairwise
      (fun x y => riskKey text y ≤ riskKey text x) ∧
    (∀ acc r, containsSub r.text.data acc.data = false → applyRisk acc r = acc) := by
  refine ⟨rfl, pairwise_sortDesc (riskKey text) risks, ?_⟩
  intro acc r h
  rw [applyRisk, if_neg (by rw [h]; exact Bool.false_ne_true)]

/-- C8 witness: with no interference, a risk whose text is absent performs
no replacement. -/
theorem C8_highlight_order_amended_witness : applyRisk "xyz" riskMark = "xyz" :=
  (C8_highlight_order_amended "xyz" [riskMark]).2.2 "xyz" riskMark (by decide)

/-! ## Claims C3 / C4 — invariants of `clean_text`

The proofs track four adjacency invariants and two pointwise invariants
through the pipeline: after the first whitespace collapse every whitespace
character is a plain space and no two whitespace characters are adjacent;
the two space-insertion passes preserve this and additionally eliminate
their own two-character patterns; the final strip preserves everything.
A second run then finds nothing to rewrite. -/

/-- Every whitespace character of `l` is a plain `' '`. -/
def onlySp (l : List Char) : Bool := l.all (fun c => !isPySpace c || c == ' ')

/-- No two adjacent characters of `l` match the two-character pattern `p`. -/
def noTwoAdj (p : Char → Char → Bool) : List Char → Bool
  | a :: b :: rest => !p a b && noTwoAdj p (b :: rest)
  | _ => true

/-- Two adjacent whitespace characters (the `\s+` redex pattern). -/
def pSp2 (a b : Char) : Bool := isPySpace a && isPySpace b

/-- Two adjacent form-feed/carriage-return characters. -/
def pFR2 (a b : Char) : Bool := isFR a && isFR b

/-- Holds when `l` carries no leading and no trailing whitespace. -/
def strippedB (l : List Char) : Bool :=
  (l.head?.all (fun c => !isPySpace c)) &&
    (l.reverse.head?.all (fun c => !isPySpace c))

theorem sp_enum {a : Char} (h : isPySpace a = true) :
    a = ' ' ∨ a = '\t' ∨ a = '\n' ∨ a = '\r' ∨ a = '\x0b' ∨ a = '\x0c' := by
  simp only [isPySpace, Bool.or_eq_true, decide_eq_true_eq] at h
  tauto

theorem fr_sp {a : Char} (h : isFR a = true) : isPySpace a = true := by
  rcases (by simpa [isFR, Bool.or_eq_true, decide_eq_true_eq] using h :
      a = '\x0c' ∨ a = '\r') with rfl | rfl <;> decide

theorem lower_not_space {a : Char} (h : isLowerA a = true) : isPySpace a = false := by
  by_cases hs : isPySpace a = true
  · rcases sp_enum hs with rfl | rfl | rfl | rfl | rfl | rfl <;> cases h
  · exact Bool.of_not_eq_true hs

theorem upper_not_space {a : Char} (h : isUpperA a = true) : isPySpace a = false := by
  by_cases hs : isPySpace a = true
  · rcases sp_enum hs with rfl | rfl | rfl | rfl | rfl | rfl <;> cases h
  · exact Bool.of_not_eq_true hs

theorem upper_bounds {a : Char} (h : isUpperA a = true) : 'A' ≤ a ∧ a ≤ 'Z' := by
  simpa [isUpperA, Bool.and_eq_true, decide_eq_true_eq] using h

theorem upper_not_lower {a : Char} (h : isUpperA a = true) : isLowerA a = false := by
  by_cases hl : isLowerA a = true
  · have h1 : ('a' : Char) ≤ a := by
      have := (by simpa [isLowerA, Bool.and_eq_true, decide_eq_true_eq] using hl :
        'a' ≤ a ∧ a ≤ 'z')
      exact this.1
    have h2 : a ≤ 'Z' := (upper_bounds h).2
    exact absurd (le_trans h1 h2) (by decide)
  · exact Bool.of_not_eq_true hl

theorem upper_not_dot {a : Char} (h : isUpperA a = true) : (a == '.') = false := by
  by_cases hd : a = '.'
  · rw [hd] at h; cases h
  · exact beq_false_of_ne hd

theorem onlySp_mem {l : List Char} (h : onlySp l = true) :
    ∀ c ∈ l, isPySpace c = true → c = ' ' := by
  intro c hc hsp
  have := (List.all_eq_true.mp h) c hc
  rcases Bool.or_eq_true_iff.mp this with h1 | h1
  · rw [hsp] at h1; cases h1
  · exact eq_of_beq h1

theorem onlySp_of_mem {l : List Char} (h : ∀ c ∈ l, isPySpace c = true → c = ' ') :
    onlySp l = true := by
  refine List.all_eq_true.mpr ?_
  intro c hc
  by_cases hsp : isPySpace c = true
  · rw [h c hc hsp]
    decide
  · rw [Bool.of_not_eq_true hsp]
    rfl

theorem onlySp_no_nl {l : List Char} (h : onlySp l = true) : ∀ c ∈ l, c ≠ '\n' := by
  intro c hc hcn
  have := onlySp_mem h c hc (by rw [hcn]; decide)
  rw [hcn] at this
  cases this

theorem onlySp_sub {l l' : List Char} (hsub : ∀ c ∈ l', c ∈ l)
    (h : onlySp l = true) : onlySp l' = true :=
  onlySp_of_mem (fun c hc => onlySp_mem h c (hsub c hc))

theorem noTwoAdj_tail {p : Char → Char → Bool} {a : Char} {l : List Char}
    (h : noTwoAdj p (a :: l) = true) : noTwoAdj p l = true := by
  cases l with
  | nil => rfl
  | cons b t =>
    simp only [noTwoAdj, Bool.and_eq_true] at h
    exact h.2

theorem noTwoAdj_cons_pair {p : Char → Char → Bool} {a b : Char} {l : List Char}
    (h : noTwoAdj p (a :: b :: l) = true) : p a b = false := by
  simp only [noTwoAdj, Bool.and_eq_true] at h
  have h1 := h.1
  cases hpb : p a b with
  | false => rfl
  | true => rw [hpb] at h1; cases h1

theorem noTwoAdj_cons {p : Char → Char → Bool} {a : Char} {l : List Char}
    (h1 : ∀ b, l.head? = some b → p a b = false) (h2 : noTwoAdj p l = true) :
    noTwoAdj p (a :: l) = true := by
  cases l with
  | nil => rfl
  | cons b t =>
    show (!p a b && noTwoAdj p (b :: t)) = true
    rw [h1 b rfl, h2]
    rfl

theorem noTwoAdj_mono {p q : Char → Char → Bool}
    (himp : ∀ a b, q a b = true → p a b = true) :
    ∀ {l : List Char}, noTwoAdj p l = true → noTwoAdj q l = true := by
  intro l
  induction l with
  | nil => intro _; rfl
  | cons a t ih =>
    intro h
    cases t with
    | nil => rfl
    | cons b rest =>
      refine noTwoAdj_cons (fun b' hb' => ?_) (ih (noTwoAdj_tail h))
      cases hb'
      by_cases hq : q a b = true
      · have hpab := himp a b hq
        rw [noTwoAdj_cons_pair h] at hpab
        cases hpab
      · exact Bool.of_not_eq_true hq

theorem noTwoAdj_append_right {p : Char → Char → Bool} :
    ∀ {a b : List Char}, noTwoAdj p (a ++ b) = true → noTwoAdj p b = true := by
  intro a
  induction a with
  | nil => intro b h; exact h
  | cons x t ih => intro b h; exact ih (noTwoAdj_tail h)

theorem noTwoAdj_append_left {p : Char → Char → Bool} :
    ∀ {a b : List Char}, noTwoAdj p (a ++ b) = true → noTwoAdj p a = true := by
  intro a
  induction a with
  | nil => intro b _; rfl
  | cons x t ih =>
    intro b h
    cases t with
    | nil => rfl
    | cons y t' =>
      refine noTwoAdj_cons (fun b' hb' => ?_) (ih (noTwoAdj_tail h))
      cases hb'
      exact noTwoAdj_cons_pair h

theorem collapseRuns_mem (p : Char → Bool) (rep : Char) (l : List Char) :
    ∀ c ∈ collapseRuns p rep l, c = rep ∨ (c ∈ l ∧ p c = false) := by
  induction l using collapseRuns.induct p rep with
  | case1 =>
    intro c hc
    cases hc
  | case2 x =>
    intro c hc
    rcases List.mem_singleton.mp hc with rfl
    by_cases hx : p x = true
    · left; simp [hx]
    · right
      rw [Bool.of_not_eq_true hx]
      simp [Bool.of_not_eq_true hx]
  | case3 a b rest hab ih =>
    intro c hc
    rw [collapseRuns, if_pos hab] at hc
    rcases ih c hc with h | h
    · exact Or.inl h
    · exact Or.inr ⟨List.mem_cons_of_mem a h.1, h.2⟩
  | case4 a b rest hab ih =>
    intro c hc
    rw [collapseRuns, if_neg hab] at hc
    rcases List.mem_cons.mp hc with rfl | hc
    · by_cases ha : p a = true
      · left; rw [if_pos ha]
      · right
        rw [if_neg ha]
        exact ⟨List.mem_cons_self a _, Bool.of_not_eq_true ha⟩
    · rcases ih c hc with h | h
      · exact Or.inl h
      · exact Or.inr ⟨List.mem_cons_of_mem a h.1, h.2⟩

theorem collapseRuns_head_of_not (p : Char → Bool) (rep : Char) {b : Char}
    (rest : List Char) (hb : p b = false) :
    ∃ t, collapseRuns p rep (b :: rest) = b :: t := by
  cases rest with
  | nil =>
    refine ⟨[], ?_⟩
    rw [collapseRuns, if_neg (by rw [hb]; exact Bool.false_ne_true)]
  | cons c rs =>
    rw [collapseRuns, if_neg (by rw [hb]; simp),
      if_neg (by rw [hb]; exact Bool.false_ne_true)]
    exact ⟨collapseRuns p rep (c :: rs), rfl⟩

theorem collapseRuns_noTwoAdj (p : Char → Bool) (rep : Char) (l : List Char) :
    noTwoAdj (fun a b => p a && p b) (collapseRuns p rep l) = true := by
  induction l using collapseRuns.induct p rep with
  | case1 => rfl
  | case2 x => rfl
  | case3 a b rest hab ih =>
    rw [collapseRuns, if_pos hab]
    exact ih
  | case4 a b rest hab ih =>
    rw [collapseRuns, if_neg hab]
    rw [Bool.and_eq_true] at hab
    push_neg at hab
    by_cases hpb : p b = true
    · have hpa : p a = false := by
        by_cases hpa : p a = true
        · exact absurd hpb (hab hpa)
        · exact Bool.of_not_eq_true hpa
      refine noTwoAdj_cons (fun y hy => ?_) ih
      rw [if_neg (by rw [hpa]; exact Bool.false_ne_true), hpa]
      rfl
    · rcases collapseRuns_head_of_not p rep rest (Bool.of_not_eq_true hpb) with ⟨t, ht⟩
      refine noTwoAdj_cons (fun y hy => ?_) ih
      rw [ht] at hy
      cases hy
      rw [Bool.of_not_eq_true hpb, Bool.and_false]

theorem collapseRuns_id (p : Char → Bool) (rep : Char) (l : List Char)
    (h1 : ∀ c ∈ l, p c = true → c = rep)
    (h2 : noTwoAdj (fun a b => p a && p b) l = true) :
    collapseRuns p rep l = l := by
  induction l using collapseRuns.induct p rep with
  | case1 => rfl
  | case2 x =>
    rw [collapseRuns]
    by_cases hx : p x = true
    · rw [if_pos hx, h1 x (List.mem_singleton_self x) hx]
    · rw [if_neg hx]
  | case3 a b rest hab ih =>
    exact absurd hab (by rw [noTwoAdj_cons_pair h2]; exact Bool.false_ne_true)
  | case4 a b rest hab ih =>
    rw [collapseRuns, if_neg hab]
    have htail := ih (fun c hc => h1 c (List.mem_cons_of_mem a hc)) (noTwoAdj_tail h2)
    rw [htail]
    by_cases ha : p a = true
    · rw [if_pos ha, h1 a (List.mem_cons_self a _) ha]
    · rw [if_neg ha]

theorem sub2_head (p : Char → Char → Bool) (x : Char) (xs : List Char) :
    ∃ t, sub2 p (x :: xs) = x :: t := by
  cases xs with
  | nil => exact ⟨[], rfl⟩
  | cons b rest =>
    by_cases h : p x b = true
    · rw [sub2, if_pos h]
      exact ⟨' ' :: b :: sub2 p rest, rfl⟩
    · rw [sub2, if_neg h]
      exact ⟨sub2 p (b :: rest), rfl⟩

theorem sub2_mem (p : Char → Char → Bool) (l : List Char) :
    ∀ c ∈ sub2 p l, c = ' ' ∨ c ∈ l := by
  induction l using sub2.induct p with
  | case1 a b rest h ih =>
    intro c hc
    rw [sub2, if_pos h] at hc
    rcases List.mem_cons.mp hc with rfl | hc
    · right; exact List.mem_cons_self _ _
    · rcases List.mem_cons.mp hc with rfl | hc
      · left; rfl
      · rcases List.mem_cons.mp hc with rfl | hc
        · right; exact List.mem_cons_of_mem _ (List.mem_cons_self _ _)
        · rcases ih c hc with h' | h'
          · exact Or.inl h'
          · exact Or.inr (List.mem_cons_of_mem _ (List.mem_cons_of_mem _ h'))
  | case2 a b rest h ih =>
    intro c hc
    rw [sub2, if_neg h] at hc
    rcases List.mem_cons.mp hc with rfl | hc
    · right; exact List.mem_cons_self _ _
    · rcases ih c hc with h' | h'
      · exact Or.inl h'
      · exact Or.inr (List.mem_cons_of_mem _ h')
  | case3 l h =>
    intro c hc
    cases l with
    | nil => cases hc
    | cons x t =>
      cases t with
      | nil => exact Or.inr hc
      | cons y t' => exact absurd rfl (h x y t')

theorem sub2_id (p : Char → Char → Bool) :
    ∀ l : List Char, noTwoAdj p l = true → sub2 p l = l := by
  intro l
  induction l with
  | nil => intro _; rfl
  | cons a t ih =>
    intro h
    cases t with
    | nil => rfl
    | cons b rest =>
      rw [sub2, if_neg (by rw [noTwoAdj_cons_pair h]; exact Bool.false_ne_true)]
      rw [ih (noTwoAdj_tail h)]

theorem sub2_noTwoAdj (p q : Char → Char → Bool)
    (hq1 : ∀ a b, p a b = true → q a ' ' = false)
    (hq2 : ∀ a b, p a b = true → q ' ' b = false)
    (l : List Char) (hl : noTwoAdj q l = true) :
    noTwoAdj q (sub2 p l) = true := by
  induction l using sub2.induct p with
  | case1 a b rest h ih =>
    rw [sub2, if_pos h]
    have htail : noTwoAdj q (sub2 p rest) = true :=
      ih (noTwoAdj_tail (noTwoAdj_tail hl))
    refine noTwoAdj_cons (fun y hy => ?_) ?_
    · cases hy
      exact hq1 a b h
    · refine noTwoAdj_cons (fun y hy => ?_) ?_
      · cases hy
        exact hq2 a b h
      · refine noTwoAdj_cons (fun y hy => ?_) htail
        cases rest with
        | nil => cases hy
        | cons z rs =>
          rcases sub2_head p z rs with ⟨t, ht⟩
          rw [ht] at hy
          cases hy
          exact noTwoAdj_cons_pair (noTwoAdj_tail hl)
  | case2 a b rest h ih =>
    rw [sub2, if_neg h]
    refine noTwoAdj_cons (fun y hy => ?_) (ih (noTwoAdj_tail hl))
    rcases sub2_head p b rest with ⟨t, ht⟩
    rw [ht] at hy
    cases hy
    exact noTwoAdj_cons_pair hl
  | case3 l h =>
    cases l with
    | nil => rfl
    | cons x t =>
      cases t with
      | nil => rfl
      | cons y t' => exact absurd rfl (h x y t')

theorem sub2_self (p : Char → Char → Bool)
    (hnext : ∀ a b c, p a b = true → p b c = false)
    (hsp1 : ∀ x, p x ' ' = false)
    (hsp2 : ∀ x, p ' ' x = false)
    (l : List Char) : noTwoAdj p (sub2 p l) = true := by
  induction l using sub2.induct p with
  | case1 a b rest h ih =>
    rw [sub2, if_pos h]
    refine noTwoAdj_cons (fun y hy => ?_) ?_
    · cases hy
      exact hsp1 a
    · refine noTwoAdj_cons (fun y hy => ?_) ?_
      · cases hy
        exact hsp2 b
      · refine noTwoAdj_cons (fun y hy => ?_) ih
        exact hnext a b y h
  | case2 a b rest h ih =>
    rw [sub2, if_neg h]
    refine noTwoAdj_cons (fun y hy => ?_) ih
    rcases sub2_head p b rest with ⟨t, ht⟩
    rw [ht] at hy
    cases hy
    exact Bool.of_not_eq_true h
  | case3 l h =>
    cases l with
    | nil => rfl
    | cons x t =>
      cases t with
      | nil => rfl
      | cons y t' => exact absurd rfl (h x y t')

theorem step5Go_id : ∀ (n : Nat) (l : List Char),
    (∀ c ∈ l, c ≠ '\n') → step5Go n l = l := by
  intro n
  induction n with
  | zero => intro l _; rfl
  | succ m ih =>
    intro l h
    cases l with
    | nil => rfl
    | cons c cs =>
      rw [step5Go]
      rw [if_neg (h c (List.mem_cons_self c cs))]
      rw [ih cs (fun x hx => h x (List.mem_cons_of_mem c hx))]

theorem step5_id (l : List Char) (h : ∀ c ∈ l, c ≠ '\n') : step5 l = l :=
  step5Go_id l.length l h

theorem dropWhile_decomp (p : Char → Bool) :
    ∀ l : List Char, ∃ t, l = t ++ l.dropWhile p := by
  intro l
  induction l with
  | nil => exact ⟨[], rfl⟩
  | cons c cs ih =>
    by_cases hc : p c = true
    · rcases ih with ⟨t, ht⟩
      refine ⟨c :: t, ?_⟩
      rw [List.dropWhile_cons, if_pos hc, List.cons_append, ← ht]
    · refine ⟨[], ?_⟩
      rw [List.dropWhile_cons, if_neg hc, List.nil_append]

theorem dropWhile_head_not (p : Char → Bool) :
    ∀ (l : List Char) (c : Char), (l.dropWhile p).head? = some c → p c = false := by
  intro l
  induction l with
  | nil => intro c hc; cases hc
  | cons x xs ih =>
    intro c hc
    by_cases hx : p x = true
    · rw [List.dropWhile_cons, if_pos hx] at hc
      exact ih c hc
    · rw [List.dropWhile_cons, if_neg hx] at hc
      cases hc
      exact Bool.of_not_eq_true hx

theorem dropWhile_id (p : Char → Bool) (l : List Char)
    (h : ∀ c, l.head? = some c → p c = false) : l.dropWhile p = l := by
  cases l with
  | nil => rfl
  | cons x xs =>
    rw [List.dropWhile_cons, if_neg (by rw [h x rfl]; exact Bool.false_ne_true)]

theorem head?_append_left {α : Type} (l r : List α) (h : l ≠ []) :
    (l ++ r).head? = l.head? := by
  cases l with
  | nil => exact absurd rfl h
  | cons x xs => rfl

theorem mem_dropWhile_sub (p : Char → Bool) (l : List Char) :
    ∀ c ∈ l.dropWhile p, c ∈ l := by
  intro c hc
  rcases dropWhile_decomp p l with ⟨t, ht⟩
  rw [ht]
  exact List.mem_append_right t hc

theorem pyStripL_mem (l : List Char) : ∀ c ∈ pyStripL l, c ∈ l := by
  intro c hc
  rw [pyStripL] at hc
  rw [List.mem_reverse] at hc
  have h1 := mem_dropWhile_sub isPySpace (l.dropWhile isPySpace).reverse c hc
  rw [List.mem_reverse] at h1
  exact mem_dropWhile_sub isPySpace l c h1

theorem pyStripL_noTwoAdj (p : Char → Char → Bool) (l : List Char)
    (h : noTwoAdj p l = true) : noTwoAdj p (pyStripL l) = true := by
  rcases dropWhile_decomp isPySpace l with ⟨t1, ht1⟩
  have h1 : noTwoAdj p (l.dropWhile isPySpace) = true :=
    noTwoAdj_append_right (ht1 ▸ h)
  rcases dropWhile_decomp isPySpace (l.dropWhile isPySpace).reverse with ⟨t2, ht2⟩
  have hs : l.dropWhile isPySpace = pyStripL l ++ t2.reverse := by
    have := congrArg List.reverse ht2
    rw [List.reverse_reverse, List.reverse_append] at this
    exact this
  exact noTwoAdj_append_left (hs ▸ h1)

theorem pyStripL_strippedB (l : List Char) : strippedB (pyStripL l) = true := by
  rw [strippedB, Bool.and_eq_true]
  constructor
  · rcases hres : pyStripL l with _ | ⟨c, t⟩
    · rfl
    · have hne : ((l.dropWhile isPySpace).reverse.dropWhile isPySpace) ≠ [] := by
        intro hnil
        rw [pyStripL, hnil] at hres
        cases hres
      rcases dropWhile_decomp isPySpace (l.dropWhile isPySpace).reverse with ⟨t2, ht2⟩
      have hs : l.dropWhile isPySpace = pyStripL l ++ t2.reverse := by
        have := congrArg List.reverse ht2
        rw [List.reverse_reverse, List.reverse_append] at this
        exact this
      have hne2 : pyStripL l ≠ [] := by rw [hres]; exact List.cons_ne_nil c t
      have hh : (l.dropWhile isPySpace).head? = some c := by
        rw [hs, head?_append_left _ _ hne2, hres]
        rfl
      have := dropWhile_head_not isPySpace l c hh
      show (!isPySpace c) = true
      rw [this]
      rfl
  · rw [pyStripL, List.reverse_reverse]
    rcases hres : (l.dropWhile isPySpace).reverse.dropWhile isPySpace with _ | ⟨c, t⟩
    · rfl
    · have := dropWhile_head_not isPySpace (l.dropWhile isPySpace).reverse c
        (by rw [hres]; rfl)
      show (!isPySpace c) = true
      rw [this]
      rfl

theorem pyStripL_id (l : List Char) (h : strippedB l = true) : pyStripL l = l := by
  rw [strippedB, Bool.and_eq_true] at h
  have h1 : l.dropWhile isPySpace = l := by
    refine dropWhile_id isPySpace l (fun c hc => ?_)
    have := h.1
    rw [hc] at this
    have : (!isPySpace c) = true := this
    cases hsp : isPySpace c with
    | false => rfl
    | true => rw [hsp] at this; cases this
  have h2 : l.reverse.dropWhile isPySpace = l.reverse := by
    refine dropWhile_id isPySpace l.reverse (fun c hc => ?_)
    have := h.2
    rw [hc] at this
    have : (!isPySpace c) = true := this
    cases hsp : isPySpace c with
    | false => rfl
    | true => rw [hsp] at this; cases this
  rw [pyStripL, h1, h2, List.reverse_reverse]

theorem pLU_parts {a b : Char} (h : pLU a b = true) :
    isLowerA a = true ∧ isUpperA b = true := by
  simpa [pLU, Bool.and_eq_true] using h

theorem pDotU_parts {a b : Char} (h : pDotU a b = true) :
    a = '.' ∧ isUpperA b = true := by
  simpa [pDotU, Bool.and_eq_true, decide_eq_true_eq] using h

theorem pSp2_left_false {a b : Char} (h : isPySpace a = false) : pSp2 a b = false := by
  rw [pSp2, h]
  rfl

theorem pSp2_right_false {a b : Char} (h : isPySpace b = false) : pSp2 a b = false := by
  rw [pSp2, h, Bool.and_false]

theorem pLU_left_false {a b : Char} (h : isLowerA a = false) : pLU a b = false := by
  rw [pLU, h]
  rfl

theorem pLU_right_false {a b : Char} (h : isUpperA b = false) : pLU a b = false := by
  rw [pLU, h, Bool.and_false]

theorem pDotU_left_false {a b : Char} (h : (a == '.') = false) : pDotU a b = false := by
  rw [pDotU]
  show (decide (a = '.') && isUpperA b) = false
  rw [show decide (a = '.') = false from h]
  rfl

theorem pDotU_right_false {a b : Char} (h : isUpperA b = false) : pDotU a b = false := by
  rw [pDotU, h, Bool.and_false]

/-- The invariants established by one run of `clean_text`: all whitespace
is a single plain space, no two adjacent whitespace characters, no
remaining `[a-z][A-Z]` or `\.[A-Z]` redex, and no surrounding
whitespace. -/
theorem clean_textL_inv (l : List Char) :
    onlySp (clean_textL l) = true ∧
    noTwoAdj pSp2 (clean_textL l) = true ∧
    noTwoAdj pLU (clean_textL l) = true ∧
    noTwoAdj pDotU (clean_textL l) = true ∧
    strippedB (clean_textL l) = true := by
  by_cases hl : l = []
  · subst hl
    exact ⟨rfl, rfl, rfl, rfl, rfl⟩
  · rw [clean_textL, if_neg hl]
    have only1 : onlySp (collapseRuns isPySpace ' ' l) = true := by
      refine onlySp_of_mem (fun c hc hcsp => ?_)
      rcases collapseRuns_mem isPySpace ' ' l c hc with h | h
      · exact h
      · rw [hcsp] at h
        cases h.2
    have sp1 : noTwoAdj pSp2 (collapseRuns isPySpace ' ' l) = true :=
      collapseRuns_noTwoAdj isPySpace ' ' l
    have hfr : collapseRuns isFR '\n' (collapseRuns isPySpace ' ' l)
        = collapseRuns isPySpace ' ' l := by
      refine collapseRuns_id isFR '\n' _ (fun c hc hfrc => ?_)
        (noTwoAdj_mono (fun a b hab => ?_) sp1)
      · have := onlySp_mem only1 c hc (fr_sp hfrc)
        rw [this] at hfrc
        cases hfrc
      · have h2 := Bool.and_eq_true _ _ ▸ hab
        rw [pSp2, fr_sp h2.1, fr_sp h2.2]
        rfl
    rw [hfr]
    have only3 : onlySp (sub2 pLU (collapseRuns isPySpace ' ' l)) = true := by
      refine onlySp_of_mem (fun c hc hcsp => ?_)
      rcases sub2_mem pLU _ c hc with rfl | hc'
      · rfl
      · exact onlySp_mem only1 c hc' hcsp
    have sp3 : noTwoAdj pSp2 (sub2 pLU (collapseRuns isPySpace ' ' l)) = true := by
      refine sub2_noTwoAdj pLU pSp2 (fun a b hab => ?_) (fun a b hab => ?_) _ sp1
      · exact pSp2_left_false (lower_not_space (pLU_parts hab).1)
      · exact pSp2_right_false (upper_not_space (pLU_parts hab).2)
    have lu3 : noTwoAdj pLU (sub2 pLU (collapseRuns isPySpace ' ' l)) = true := by
      refine sub2_self pLU (fun a b c hab => ?_) (fun x => ?_) (fun x => ?_) _
      · exact pLU_left_false (upper_not_lower (pLU_parts hab).2)
      · exact pLU_right_false (by decide)
      · exact pLU_left_false (by decide)
    have only4 : onlySp (sub2 pDotU (sub2 pLU (collapseRuns isPySpace ' ' l))) = true := by
      refine onlySp_of_mem (fun c hc hcsp => ?_)
      rcases sub2_mem pDotU _ c hc with rfl | hc'
      · rfl
      · exact onlySp_mem only3 c hc' hcsp
    have sp4 : noTwoAdj pSp2 (sub2 pDotU (sub2 pLU (collapseRuns isPySpace ' ' l))) = true := by
      refine sub2_noTwoAdj pDotU pSp2 (fun a b hab => ?_) (fun a b hab => ?_) _ sp3
      · have := (pDotU_parts hab).1
        subst this
        exact pSp2_left_false (by decide)
      · exact pSp2_right_false (upper_not_space (pDotU_parts hab).2)
    have lu4 : noTwoAdj pLU (sub2 pDotU (sub2 pLU (collapseRuns isPySpace ' ' l))) = true := by
      refine sub2_noTwoAdj pDotU pLU (fun a b hab => ?_) (fun a b hab => ?_) _ lu3
      · exact pLU_right_false (by decide)
      · exact pLU_left_false (by decide)
    have dot4 : noTwoAdj pDotU (sub2 pDotU (sub2 pLU (collapseRuns isPySpace ' ' l))) = true := by
      refine sub2_self pDotU (fun a b c hab => ?_) (fun x => ?_) (fun x => ?_) _
      · exact pDotU_left_false (upper_not_dot (pDotU_parts hab).2)
      · exact pDotU_right_false (by decide)
      · exact pDotU_left_false (by decide)
    have h5 : step5 (sub2 pDotU (sub2 pLU (collapseRuns isPySpace ' ' l)))
        = sub2 pDotU (sub2 pLU (collapseRuns isPySpace ' ' l)) :=
      step5_id _ (onlySp_no_nl only4)
    rw [h5]
    refine ⟨onlySp_sub (pyStripL_mem _) only4, pyStripL_noTwoAdj pSp2 _ sp4,
      pyStripL_noTwoAdj pLU _ lu4, pyStripL_noTwoAdj pDotU _ dot4,
      pyStripL_strippedB _⟩

/-- Running the pipeline on already-clean text changes nothing. -/
theorem clean_textL_idem (l : List Char) :
    clean_textL (clean_textL l) = clean_textL l := by
  rcases clean_textL_inv l with ⟨only, sp, lu, dot, stripped⟩
  by_cases hy : clean_textL l = []
  · rw [hy]
    rfl
  · rw [clean_textL, if_neg hy]
    have h1 : collapseRuns isPySpace ' ' (clean_textL l) = clean_textL l :=
      collapseRuns_id isPySpace ' ' _ (onlySp_mem only) sp
    rw [h1]
    have h2 : collapseRuns isFR '\n' (clean_textL l) = clean_textL l := by
      refine collapseRuns_id isFR '\n' _ (fun c hc hfrc => ?_)
        (noTwoAdj_mono (fun a b hab => ?_) sp)
      · have := onlySp_mem only c hc (fr_sp hfrc)
        rw [this] at hfrc
        cases hfrc
      · have hab2 := Bool.and_eq_true _ _ ▸ hab
        rw [pSp2, fr_sp hab2.1, fr_sp hab2.2]
        rfl
    rw [h2]
    rw [sub2_id pLU _ lu, sub2_id pDotU _ dot,
      step5_id _ (onlySp_no_nl only), pyStripL_id _ stripped]

/-- C3: the text normalizer `clean_text` is idempotent. -/
theorem C3_clean_text_idempotent (s : String) :
    clean_text (clean_text s) = clean_text s := by
  rw [clean_text, clean_text]
  show String.mk (clean_textL (clean_textL s.data)) = _
  rw [clean_textL_idem]

/-- C3 witness: idempotence at a concrete input. -/
theorem C3_clean_text_idempotent_witness :
    clean_text (clean_text "  a\n\nB.c  ") = clean_text "  a\n\nB.c  " :=
  C3_clean_text_idempotent "  a\n\nB.c  "

/-- C4: the initial `\s+` collapse removes every newline, carriage return
and form feed, making the later "collapse 3+ newlines" substitution the
identity on its intermediate input, and `clean_text`'s output never
contains a newline. -/
theorem C4_no_newlines_after_collapse (s : String) :
    (∀ c ∈ collapseRuns isPySpace ' ' s.data,
      c ≠ '\n' ∧ c ≠ '\r' ∧ c ≠ '\x0c') ∧
    step5 (sub2 pDotU (sub2 pLU
        (collapseRuns isFR '\n' (collapseRuns isPySpace ' ' s.data))))
      = sub2 pDotU (sub2 pLU
          (collapseRuns isFR '\n' (collapseRuns isPySpace ' ' s.data))) ∧
    ∀ c ∈ (clean_text s).data, c ≠ '\n' := by
  have only1 : onlySp (collapseRuns isPySpace ' ' s.data) = true := by
    refine onlySp_of_mem (fun c hc hcsp => ?_)
    rcases collapseRuns_mem isPySpace ' ' s.data c hc with h | h
    · exact h
    · rw [hcsp] at h
      cases h.2
  have hfr : collapseRuns isFR '\n' (collapseRuns isPySpace ' ' s.data)
      = collapseRuns isPySpace ' ' s.data := by
    refine collapseRuns_id isFR '\n' _ (fun c hc hfrc => ?_)
      (noTwoAdj_mono (fun a b hab => ?_) (collapseRuns_noTwoAdj isPySpace ' ' s.data))
    · have := onlySp_mem only1 c hc (fr_sp hfrc)
      rw [this] at hfrc
      cases hfrc
    · have hab2 := Bool.and_eq_true _ _ ▸ hab
      show pSp2 a b = true
      rw [pSp2, fr_sp hab2.1, fr_sp hab2.2]
      rfl
  refine ⟨?_, ?_, ?_⟩
  · intro c hc
    refine ⟨?_, ?_, ?_⟩ <;> intro hceq <;>
      · have := onlySp_mem only1 c hc (by rw [hceq]; decide)
        rw [hceq] at this
        cases this
  · rw [hfr]
    have only3 : onlySp (sub2 pLU (collapseRuns isPySpace ' ' s.data)) = true := by
      refine onlySp_of_mem (fun c hc hcsp => ?_)
      rcases sub2_mem pLU _ c hc with rfl | hc'
      · rfl
      · exact onlySp_mem only1 c hc' hcsp
    have only4 : onlySp (sub2 pDotU (sub2 pLU (collapseRuns isPySpace ' ' s.data))) = true := by
      refine onlySp_of_mem (fun c hc hcsp => ?_)
      rcases sub2_mem pDotU _ c hc with rfl | hc'
      · rfl
      · exact onlySp_mem only3 c hc' hcsp
    exact step5_id _ (onlySp_no_nl only4)
  · show ∀ c ∈ clean_textL s.data, c ≠ '\n'
    exact onlySp_no_nl (clean_textL_inv s.data).1

end ContractReview
